import Mathlib

/-!
Verification of the CSL (Compressed Sparse Line) engine of the `ndsparse`
crate.  The Rust sources under `src/ndsparse/src` are shallowly embedded:
`usize` becomes `Nat` with explicit saturating/wrapping operations where the
source uses them, slices become `List`, fallible operations return `Option`
or `Except`, and assertion failures / index panics are modelled as error
values.  Definitions follow the Rust functions item by item; the spec-side
predicates (`StoreValid`, `lineSpec`, …) state the documented invariants.
-/

namespace Ndsparse

/-- The largest value of the 64-bit `usize` type. -/
def USIZE_MAX : Nat := 2 ^ 64 - 1

/-- `usize::saturating_add`. -/
def satAdd (a b : Nat) : Nat := min (a + b) USIZE_MAX

/-- `usize::saturating_mul`. -/
def satMul (a b : Nat) : Nat := min (a * b) USIZE_MAX

/-- Product of a list of `usize` values as computed by `Iterator::product`;
release-mode Rust wraps on overflow, hence the modulus. -/
def usizeProd (l : List Nat) : Nat := l.foldl (fun a d => a * d % 2 ^ 64) 1

/-- `slice.get(start..end_)`: `none` when `start > end_` or `end_ > len`
(the cases where Rust's range-`get` returns `None`). -/
def sliceGet (l : List α) (s e : Nat) : Option (List α) :=
  if s ≤ e ∧ e ≤ l.length then some ((l.drop s).take (e - s)) else none

/-- `utils::are_in_ascending_order` applied to the offsets: every adjacent
pair `(a, b)` taken from `windows(2)` satisfies `a <= b`. -/
def areInAscendingOrder : List Nat → Bool
  | a :: b :: rest => decide (a ≤ b) && areInAscendingOrder (b :: rest)
  | _ => true

/-- `utils::has_duplicates`: a pairwise scan for equal elements. -/
def hasDuplicates : List Nat → Bool
  | [] => false
  | a :: rest => rest.contains a || hasDuplicates rest

/-- `utils::are_in_upper_bound`: every element strictly below `ub`. -/
def areInUpperBound (l : List Nat) (ub : Nat) : Bool :=
  l.all (fun x => decide (x < ub))

/-- `utils::max_nnz`: 0 for the all-zero (default) dimension array, the first
axis for a single axis, otherwise the saturating product of the nonzero axis
sizes. -/
def maxNnz (dims : List Nat) : Nat :=
  if dims.all (fun d => d = 0) then 0
  else
    match dims with
    | [] => 0
    | first :: _ =>
      if dims.length = 1 then first
      else (dims.filter (fun d => d ≠ 0)).foldl satMul 1

/-- The base CSL structure (`Csl<DA, DS, IS, OS>`): dimensions, data, indices
and offsets.  Views (`CslRef`/`CslMut`) are values of the same shape. -/
structure Csl (α : Type) where
  dims : List Nat
  data : List α
  indcs : List Nat
  offs : List Nat
deriving DecidableEq, Repr

/-- `Csl::nnz`. -/
def Csl.nnz (csl : Csl α) : Nat := csl.data.length

/-- The error enumeration of `csl_error.rs` (the feature-gated random-only
variant is omitted). -/
inductive CslError
  | DataIndcsLengthGreaterThanDimsLength
  | DiffDataIndcsLength
  | DuplicatedIndices
  | IndcsGreaterThanEqualDimLength
  | InnermostDimsZero
  | InvalidIterDim
  | InvalidOffsetsLength
  | InvalidOffsetsOrder
  | LastOffsetDifferentNnz
  | OffsLengthOverflow
deriving DecidableEq, Repr

/-- `csl_utils::correct_offs_len`: 1 for zero axes, 2 for one axis, 1 for the
all-zero dimension array, otherwise the saturating product of the nonzero
non-innermost axis sizes plus one, with a checked increment. -/
def correct_offs_len (dims : List Nat) : Except CslError Nat :=
  match dims.length with
  | 0 => .ok 1
  | 1 => .ok 2
  | _ =>
    if dims.all (fun d => d = 0) then .ok 1
    else
      let offsLen := ((dims.reverse.drop 1).filter (fun d => d ≠ 0)).foldl satMul 1
      if offsLen = USIZE_MAX then .error CslError.OffsLengthOverflow
      else .ok (offsLen + 1)

/-- The per-position stride of `csl_utils::line_offs`:
`dims.iter().skip(idx + 1).rev().skip(1).product()`, i.e. the (wrapping)
product of the axis sizes after position `pos` and before the innermost. -/
def strideAt (dims : List Nat) (pos : Nat) : Nat :=
  usizeProd ((dims.drop (pos + 1)).dropLast)

/-- The accumulation loop of `csl_utils::line_offs`: walk the first `n`
multi-index entries (`enumerate().take(diff)`), adding
`strideAt(pos) * entry` with saturating arithmetic. -/
def linesLoop (dims : List Nat) : List Nat → Nat → Nat → Nat → Nat
  | _, 0, _, lines => lines
  | [], _ + 1, _, lines => lines
  | i :: is, n + 1, pos, lines =>
    linesLoop dims is n (pos + 1) (satAdd lines (satMul (strideAt dims pos) i))

/-- `csl_utils::line_offs`.  Returns the pair of half-open ranges
(offsets-range, values-range); the values range is relative to the first
offset.  `none` models every early `return None`. -/
def line_offs (dims idcs offs : List Nat) : Option ((Nat × Nat) × (Nat × Nat)) :=
  if dims.length = 0 then none
  else if dims.length = 1 then
    match offs.get? 1, offs.get? 0 with
    | some o1, some o0 => some ((0, 2), (0, o1 - o0))
    | _, _ => none
  else
    let diff := idcs.length - 2
    let base := linesLoop dims idcs diff 0 0
    match idcs.get? (dims.length - 2) with
    | none => none
    | some inner =>
      let lines := satAdd base inner
      if lines > USIZE_MAX - 2 then none
      else
        match offs.get? 0, offs.get? lines, offs.get? (lines + 1) with
        | some first, some oS, some oE =>
          some ((lines, satAdd lines 2), (oS - first, oE - first))
        | _, _, _ => none

/-- `csl_utils::outermost_stride`: product of the axis sizes strictly between
the outermost and the innermost axis. -/
def outermost_stride (dims : List Nat) : Nat :=
  usizeProd ((dims.drop 1).dropLast)

/-- `csl_utils::outermost_offs`: offset-index range and value range covering
the outermost-axis positions `rstart..rend`; out-of-range offset reads give 0
(`unwrap_or(&0)`). -/
def outermost_offs (dims offs : List Nat) (rstart rend : Nat) :
    (Nat × Nat) × (Nat × Nat) :=
  let startOffIdx := satMul (outermost_stride dims) rstart
  let endOffIdx := satMul (outermost_stride dims) rend
  let offStart := (offs.get? startOffIdx).getD 0
  let offEnd := (offs.get? endOffIdx).getD 0
  ((startOffIdx, satAdd endOffIdx 1), (offStart, offEnd))

/-- One step-bounded rendering of `slice::binary_search` (the standard
two-pointer loop on `[left, right)` with midpoint `left + (right-left)/2`).
The fuel only guards termination; `right - left` shrinks every iteration, so
`l.length` steps always suffice. -/
def binSearchGo (l : List Nat) (t : Nat) : Nat → Nat → Nat → Except Nat Nat
  | 0, left, _ => .error left
  | fuel + 1, left, right =>
    if left < right then
      match l.get? (left + (right - left) / 2) with
      | none => .error left
      | some v =>
        if v < t then binSearchGo l t fuel (left + (right - left) / 2 + 1) right
        else if t < v then binSearchGo l t fuel left (left + (right - left) / 2)
        else .ok (left + (right - left) / 2)
    else .error left

/-- `slice::binary_search(&t)`. -/
def binarySearch (l : List Nat) (t : Nat) : Except Nat Nat :=
  binSearchGo l t l.length 0 l.length

/-- `csl_utils::data_idx`: absolute position in `data`/`indcs` of the entry
addressed by the multi-index, found by binary search within the line. -/
def data_idx (csl : Csl α) (idcs : List Nat) : Option Nat :=
  match idcs.getLast? with
  | none => none
  | some innermost =>
    match line_offs csl.dims idcs csl.offs with
    | none => none
    | some (_, (vS, vE)) =>
      match sliceGet csl.indcs vS vE with
      | none => none
      | some slice =>
        match binarySearch slice innermost with
        | .ok x => some (vS + x)
        | .error _ => none

/-- `Csl::value`: the data entry at `data_idx`; the out-of-range indexing
panic of `self.data.as_ref()[idx]` is modelled by `List.get?`. -/
def value (csl : Csl α) (idcs : List Nat) : Option α :=
  (data_idx csl idcs).bind (fun idx => csl.data.get? idx)

/-- `csl_utils::line` (the immutable instantiation of the `create_sub_dim!`
macro): a one-axis view of the line addressed by `idcs`. -/
def lineRef (csl : Csl α) (idcs : List Nat) : Option (Csl α) :=
  match csl.dims.getLast? with
  | none => none
  | some lastDim =>
    match line_offs csl.dims idcs csl.offs with
    | none => none
    | some ((oS, oE), (vS, vE)) =>
      match sliceGet csl.data vS vE, sliceGet csl.indcs vS vE,
          sliceGet csl.offs oS oE with
      | some dataS, some indcsS, some offsS =>
        some ⟨[lastDim], dataS, indcsS, offsS⟩
      | _, _, _ => none

/-- `Result::unwrap_or_else(|x| x)` on a binary-search result. -/
def unwrapEither (e : Except Nat Nat) : Nat :=
  match e with
  | .ok x => x
  | .error x => x

/-- `csl_utils::sub_dim` (immutable instantiation), with `n` playing the role
of `TODA::CAPACITY`.  Returns `none` for a reversed range, a too-large target
axis count, the zero-axis target, and every failing `?`-lookup. -/
def sub_dim (csl : Csl α) (n : Nat) (rstart rend : Nat) : Option (Csl α) :=
  if rstart > rend ∨ n > csl.dims.length then none
  else
    match n with
    | 0 => none
    | 1 =>
      match csl.offs.get? 1, csl.offs.get? 0 with
      | some o1, some o0 =>
        match sliceGet csl.indcs 0 (o1 - o0) with
        | none => none
        | some indcs =>
          let start := unwrapEither (binarySearch indcs rstart)
          match sliceGet indcs start indcs.length with
          | none => none
          | some sub =>
            let e := unwrapEither (binarySearch sub rend)
            match csl.dims.get? (csl.dims.length - 1) with
            | none => none
            | some dlast =>
              match sliceGet csl.data start csl.data.length with
              | none => none
              | some dataTail =>
                match sliceGet dataTail 0 e, sliceGet csl.indcs start csl.indcs.length with
                | some dataS, some indcsTail =>
                  match sliceGet indcsTail 0 e, sliceGet csl.offs 0 2 with
                  | some indcsS, some offsS => some ⟨[dlast], dataS, indcsS, offsS⟩
                  | _, _ => none
                | _, _ => none
      | _, _ => none
    | _ + 2 =>
      let lower := csl.dims.length - n
      match sliceGet csl.dims lower csl.dims.length with
      | none => none
      | some dims0 =>
        let dims1 := (rend - rstart) :: dims0.drop 1
        let (oR, vR) := outermost_offs dims1 csl.offs rstart rend
        match sliceGet csl.data vR.1 vR.2, sliceGet csl.indcs vR.1 vR.2,
            sliceGet csl.offs oR.1 oR.2 with
        | some dataS, some indcsS, some offsS => some ⟨dims1, dataS, indcsS, offsS⟩
        | _, _, _ => none

/-- The ways `Csl::new` can abort instead of constructing a store: one case
per `assert!` message, plus the out-of-range slice indexing that can occur
inside the per-line duplicate scan, plus the offsets-length overflow surfaced
through `correct_offs_len`. -/
inductive NewFailure
  | innermostDimsZero
  | diffDataIndcsLength
  | invalidOffsetsOrder
  | dataIndcsLengthGreaterThanDimsLength
  | sliceOutOfBounds
  | duplicatedIndices
  | lastOffsetDifferentNnz
  | indcsGreaterThanEqualDimLength
  | invalidOffsetsLength
  | offsLengthOverflow
deriving DecidableEq, Repr

/-- The dimension-array check of `Csl::new`: if some axis is nonzero, every
axis from the first nonzero one inward must be nonzero. -/
def zeroBlockCheck (dims : List Nat) : Bool :=
  match dims.findIdx? (fun d => d ≠ 0) with
  | none => true
  | some idx => (dims.drop idx).all (fun d => d ≠ 0)

/-- The per-line duplicate scan of `Csl::new`: for every `windows(2)` pair of
offsets, the index sub-slice `indcs[x0-first..x1-first]` must be free of
duplicates; the slice indexing itself can panic (`sliceOutOfBounds`). -/
def dupScan (idcs : List Nat) (first : Nat) : List Nat → Except NewFailure Unit
  | o0 :: o1 :: rest =>
    match sliceGet idcs (o0 - first) (o1 - first) with
    | none => .error NewFailure.sliceOutOfBounds
    | some slice =>
      if hasDuplicates slice then .error NewFailure.duplicatedIndices
      else dupScan idcs first (o1 :: rest)
  | _ => .ok ()

/-- The tail of `Csl::new` guarded by `if let Some(last) = dims.last()`:
index upper bound and offsets length. -/
def newDimsChecks (dims : List Nat) (data : List α) (idcs offs : List Nat) :
    Except NewFailure (Csl α) :=
  match dims.getLast? with
  | none => .ok ⟨dims, data, idcs, offs⟩
  | some lastDim =>
    if ¬ areInUpperBound idcs lastDim then
      .error NewFailure.indcsGreaterThanEqualDimLength
    else
      match correct_offs_len dims with
      | .error _ => .error NewFailure.offsLengthOverflow
      | .ok n =>
        if offs.length ≠ n then .error NewFailure.invalidOffsetsLength
        else .ok ⟨dims, data, idcs, offs⟩

/-- The duplicate check of `Csl::new`, guarded by
`if let Some(first) = offs_ref.get(0)`. -/
def dupCheckOfNew (idcs offs : List Nat) : Except NewFailure Unit :=
  match offs.head? with
  | none => .ok ()
  | some first => dupScan idcs first offs

/-- The last-offset check of `Csl::new`, guarded by
`if let Some(last_ref) = offs_ref.last()`: `last - first` must equal both the
data length and the indices length. -/
def lastOffsetOk (nnzData nnzIdcs : Nat) (offs : List Nat) : Bool :=
  match offs.getLast?, offs.head? with
  | some last, some first =>
    decide (last - first = nnzData) && decide (last - first = nnzIdcs)
  | _, _ => true

/-- `Csl::new` (the assert-based constructor of `csl.rs`): every violated
check is returned as the corresponding `NewFailure` instead of aborting the
process.  The checks run in source order and the store is only assembled
after all of them pass. -/
def csl_new (dims : List Nat) (data : List α) (idcs offs : List Nat) :
    Except NewFailure (Csl α) :=
  if ¬ zeroBlockCheck dims then .error NewFailure.innermostDimsZero
  else if data.length ≠ idcs.length then .error NewFailure.diffDataIndcsLength
  else if ¬ areInAscendingOrder offs then .error NewFailure.invalidOffsetsOrder
  else if ¬ (data.length ≤ maxNnz dims ∧ idcs.length ≤ maxNnz dims) then
    .error NewFailure.dataIndcsLengthGreaterThanDimsLength
  else
    match dupCheckOfNew idcs offs with
    | .error e => .error e
    | .ok _ =>
      if ¬ lastOffsetOk data.length idcs.length offs then
        .error NewFailure.lastOffsetDifferentNnz
      else newDimsChecks dims data idcs offs

/-- Lexicographic comparison of `usize` slices (`a.slice()[..] < dims[..]`),
as implemented by `PartialOrd` for slices: elementwise with length
tie-breaking. -/
def sliceLt : List Nat → List Nat → Bool
  | [], [] => false
  | [], _ :: _ => true
  | _ :: _, [] => false
  | a :: as_, b :: bs =>
    if a < b then true else if b < a then false else sliceLt as_ bs

/-- `slice::swap(ia, ib)`; the out-of-range panic is modelled as `none`. -/
def listSwap (l : List α) (ia ib : Nat) : Option (List α) :=
  match l.get? ia, l.get? ib with
  | some va, some vb => some ((l.set ia vb).set ib va)
  | _, _ => none

/-- `Csl::swap_value`: the leading `assert!` (lexicographic bound check) and
the `slice::swap` panic are modelled as `none`; otherwise the result is the
returned `bool` together with the (possibly) mutated store. -/
def swap_value (csl : Csl α) (a b : List Nat) : Option (Bool × Csl α) :=
  if ¬ (sliceLt a csl.dims ∧ sliceLt b csl.dims) then none
  else
    match data_idx csl a with
    | some ia =>
      match data_idx csl b with
      | some ib =>
        match listSwap csl.data ia ib with
        | some swapped => some (true, { csl with data := swapped })
        | none => none
      | none => some (false, csl)
    | none => some (false, csl)

/-- The dimension rewrite at the end of `Csl::truncate`: every axis whose
truncation coordinate is zero is zeroed. -/
def zeroDims (dims idcs : List Nat) : List Nat :=
  (dims.zip idcs).map (fun p => if p.2 = 0 then 0 else p.1)

/-- `Csl::truncate`: cut `data`/`indcs` at one past the start of the
addressed line, cut `offs` after the line position and push the innermost
coordinate, then zero the collapsed axes.  (`indcs.last().unwrap()` cannot
panic when `line_offs` succeeded, since the axis count is positive.) -/
def truncate (csl : Csl α) (idcs : List Nat) : Csl α :=
  match line_offs csl.dims idcs csl.offs with
  | none => csl
  | some ((oS, _), (vS, _)) =>
    let cutPoint := vS + 1
    { dims := zeroDims csl.dims idcs
      data := csl.data.take cutPoint
      indcs := csl.indcs.take cutPoint
      offs := csl.offs.take (oS + 1) ++ [(idcs.getLast?).getD 0] }

/-- `Csl::clear`: the dimension array is overwritten with its `Default`
value (all zeros, same length) and the three storages are emptied. -/
def clear (csl : Csl α) : Csl α :=
  ⟨List.replicate csl.dims.length 0, [], [], []⟩

/-- State of the outermost-axis iterators of `csl_iter.rs`
(`CsIterRef`/`CslIterMut`): the backing containers are shared, `dims[0]` has
been overwritten with 1, and `[curr_idx, max_idx)` is the remaining range. -/
structure CslIter (α : Type) where
  curr_idx : Nat
  data : List α
  dims : List Nat
  indcs : List Nat
  max_idx : Nat
  offs : List Nat
deriving DecidableEq, Repr

/-- `CsIterRef::new` as invoked by `Csl::outermost_iter`; the
`assert!(DA::CAPACITY > 1)` is modelled as `none`. -/
def outermost_iter (csl : Csl α) : Option (CslIter α) :=
  match csl.dims with
  | d0 :: rest =>
    if csl.dims.length > 1 then
      some ⟨0, csl.data, 1 :: rest, csl.indcs, d0, csl.offs⟩
    else none
  | [] => none

/-- The view assembled by `Iterator::next` at outermost position `i`: ranges
from `outermost_offs(dims, offs, i..i+1)`, then sub-slices of the three
backing containers (`none` models the out-of-range panics of
`from_raw_parts`/`self.indcs[values]`/`self.offs[indcs]`). -/
def viewAt (dims : List Nat) (data : List α) (indcs offs : List Nat) (i : Nat) :
    Option (Csl α) :=
  let (oR, vR) := outermost_offs dims offs i (i + 1)
  match sliceGet data vR.1 vR.2, sliceGet indcs vR.1 vR.2,
      sliceGet offs oR.1 oR.2 with
  | some dataS, some indcsS, some offsS => some ⟨dims, dataS, indcsS, offsS⟩
  | _, _, _ => none

/-- `Iterator::next` for the outermost iterator. -/
def iterNext (it : CslIter α) : Option (Option (Csl α) × CslIter α) :=
  if it.curr_idx ≥ it.max_idx then none
  else some (viewAt it.dims it.data it.indcs it.offs it.curr_idx,
    { it with curr_idx := it.curr_idx + 1 })

/-- `split_at(idx)` of the outermost iterator: two iterators over
`[curr, curr+idx)` and `[curr+idx, max)` sharing the backing containers. -/
def iterSplitAt (it : CslIter α) (idx : Nat) : CslIter α × CslIter α :=
  let cutPoint := it.curr_idx + idx
  ({ it with max_idx := cutPoint }, { it with curr_idx := cutPoint })

/-- Driver collecting all items an outermost iterator yields, in order.  The
fuel is the exact number of remaining steps. -/
def iterViews (it : CslIter α) : Nat → List (Option (Csl α))
  | 0 => []
  | fuel + 1 =>
    match iterNext it with
    | none => []
    | some (view, it1) => view :: iterViews it1 fuel

/-- All items yielded by an outermost iterator. -/
def iterToList (it : CslIter α) : List (Option (Csl α)) :=
  iterViews it (it.max_idx - it.curr_idx)

/-- `CslLineConstructorError` of `csl_line_constructor.rs`. -/
inductive CslLineConstructorError
  | DimsOverflow
  | UnsortedIndices
  | EmptyDimension
  | MaxNumOfLines
deriving DecidableEq, Repr

/-- State of `CslLineConstructor`: the store being built, the cursor over
not-yet-sized axes, and the last emitted offset. -/
structure LineCtor (α : Type) where
  csl : Csl α
  curr_dim_idx : Nat
  last_off : Nat
deriving DecidableEq, Repr

/-- The innermost axis size read by `push_line`
(`self.csl.dims.slice().last().unwrap()`; the constructor never exists for a
zero-capacity dimension array, so the unwrap cannot fire). -/
def lastDimOf (s : LineCtor α) : Nat := (s.csl.dims.getLast?).getD 0

/-- `CslLineConstructor::push_empty_line`: repeat the last offset. -/
def push_empty_line (s : LineCtor α) : LineCtor α :=
  { s with csl := { s.csl with offs := s.csl.offs ++ [s.last_off] } }

/-- The element loop of `push_line` after its first element: `j` is the next
value of the bounded counter `nnz_iter = 1..=d` (the zip stops reading the
input once `j > d`), `lastIdx` the previously pushed index.  Returns the
indices and values pushed by the loop. -/
def pushLineGo (d : Nat) :
    Nat → Nat → List (Nat × α) → Except CslLineConstructorError (List Nat × List α)
  | _, _, [] => .ok ([], [])
  | j, lastIdx, (idx, v) :: rest =>
    if j > d then .ok ([], [])
    else if idx ≤ lastIdx then .error CslLineConstructorError.UnsortedIndices
    else
      match pushLineGo d (j + 1) idx rest with
      | .error e => .error e
      | .ok (is, vs) => .ok (idx :: is, v :: vs)

/-- `CslLineConstructor::push_line`: consume at most `d` (= innermost axis
size) pairs from the iterator, reject non-ascending indices, append the
pushed entries and the new cumulative offset.  An empty consumption degrades
to `push_empty_line`. -/
def push_line (s : LineCtor α) (di : List (Nat × α)) :
    Except CslLineConstructorError (LineCtor α) :=
  match di with
  | [] => .ok (push_empty_line s)
  | (idx0, v0) :: rest =>
    if lastDimOf s = 0 then .ok (push_empty_line s)
    else
      match pushLineGo (lastDimOf s) 2 idx0 rest with
      | .error e => .error e
      | .ok (is, vs) =>
        let k := is.length + 1
        .ok
          { csl :=
              { dims := s.csl.dims
                data := s.csl.data ++ v0 :: vs
                indcs := s.csl.indcs ++ idx0 :: is
                offs := s.csl.offs ++ [s.last_off + k] }
            curr_dim_idx := s.curr_dim_idx
            last_off := s.last_off + k }

/-!  Spec-side predicates.  They state the documented structural invariants
declaratively; the relation to the executable checks of `Csl::new` is proved
below. -/

/-- A multi-index is within the shape bounds (elementwise strict). -/
def InBounds (idcs dims : List Nat) : Prop :=
  ∀ i ∈ List.range dims.length, idcs.getD i 0 < dims.getD i 0

/-- Shape invariant: no axis may be nonzero while a more-inner axis is zero
(zero axes form a block reaching the innermost axis). -/
def ZeroBlock (dims : List Nat) : Prop :=
  ∀ i ∈ List.range dims.length, ∀ j ∈ List.range dims.length,
    i ≤ j → dims.getD i 0 ≠ 0 → dims.getD j 0 ≠ 0

/-- Offset of line `k` relative to the first offset. -/
def relOff (offs : List Nat) (k : Nat) : Nat :=
  offs.getD k 0 - offs.getD 0 0

/-- The index sub-slice of line `k`:
`indcs[(offs[k] - offs[0])..(offs[k+1] - offs[0])]`. -/
def lineSliceAt (indcs offs : List Nat) (k : Nat) : List Nat :=
  (indcs.drop (relOff offs k)).take (relOff offs (k + 1) - relOff offs k)

/-- The structural invariants of a CSL store as documented (§3 of the spec):
shape zero-block rule, equal `data`/`indcs` lengths, non-decreasing offsets,
capacity bound, strictly ascending per-line indices, last-minus-first offset
equal to nnz, index upper bound and offsets length. -/
def StoreValid (csl : Csl α) : Prop :=
  ZeroBlock csl.dims ∧
  csl.data.length = csl.indcs.length ∧
  List.Pairwise (· ≤ ·) csl.offs ∧
  csl.data.length ≤ maxNnz csl.dims ∧
  (∀ k ∈ List.range (csl.offs.length - 1),
    List.Pairwise (· < ·) (lineSliceAt csl.indcs csl.offs k)) ∧
  (csl.offs ≠ [] →
    (csl.offs.getLast?).getD 0 - (csl.offs.head?).getD 0 = csl.data.length) ∧
  (csl.dims ≠ [] →
    (∀ x ∈ csl.indcs, x < (csl.dims.getLast?).getD 0) ∧
    correct_offs_len csl.dims = .ok csl.offs.length)

/-- The invariants actually enforced by `Csl::new`: identical to
`StoreValid` except that each line's indices are only required to be free of
duplicates, not ascending. -/
def WeakValid (csl : Csl α) : Prop :=
  ZeroBlock csl.dims ∧
  csl.data.length = csl.indcs.length ∧
  List.Pairwise (· ≤ ·) csl.offs ∧
  csl.data.length ≤ maxNnz csl.dims ∧
  (∀ k ∈ List.range (csl.offs.length - 1),
    (lineSliceAt csl.indcs csl.offs k).Nodup) ∧
  (csl.offs ≠ [] →
    (csl.offs.getLast?).getD 0 - (csl.offs.head?).getD 0 = csl.data.length) ∧
  (csl.dims ≠ [] →
    (∀ x ∈ csl.indcs, x < (csl.dims.getLast?).getD 0) ∧
    correct_offs_len csl.dims = .ok csl.offs.length)

/-- Spec formula for the line number (§4.1): the row-major mixed-radix sum
`Σ idx[i] * stride(i)` over the non-innermost coordinates, where `stride(i)`
is the product of the non-innermost axis sizes after position `i` (so the
second-to-last coordinate enters with stride 1).  The two arguments are the
non-innermost axis sizes and coordinates. -/
def lineSpec : List Nat → List Nat → Nat
  | _ :: ds, i :: is => i * ds.prod + lineSpec ds is
  | _, _ => 0

instance : DecidablePred (ZeroBlock) := fun dims =>
  inferInstanceAs (Decidable
    (∀ i ∈ List.range dims.length, ∀ j ∈ List.range dims.length,
      i ≤ j → dims.getD i 0 ≠ 0 → dims.getD j 0 ≠ 0))

instance [DecidableEq ε] [DecidableEq β] : DecidableEq (Except ε β) := fun a b =>
  match a, b with
  | .ok x, .ok y =>
    if h : x = y then .isTrue (by rw [h]) else .isFalse (by simp [h])
  | .error x, .error y =>
    if h : x = y then .isTrue (by rw [h]) else .isFalse (by simp [h])
  | .ok _, .error _ => .isFalse (by simp)
  | .error _, .ok _ => .isFalse (by simp)

instance (csl : Csl α) : Decidable (StoreValid csl) :=
  inferInstanceAs (Decidable
    (ZeroBlock csl.dims ∧
    csl.data.length = csl.indcs.length ∧
    List.Pairwise (· ≤ ·) csl.offs ∧
    csl.data.length ≤ maxNnz csl.dims ∧
    (∀ k ∈ List.range (csl.offs.length - 1),
      List.Pairwise (· < ·) (lineSliceAt csl.indcs csl.offs k)) ∧
    (csl.offs ≠ [] →
      (csl.offs.getLast?).getD 0 - (csl.offs.head?).getD 0 = csl.data.length) ∧
    (csl.dims ≠ [] →
      (∀ x ∈ csl.indcs, x < (csl.dims.getLast?).getD 0) ∧
      correct_offs_len csl.dims = .ok csl.offs.length)))

instance (csl : Csl α) : Decidable (WeakValid csl) :=
  inferInstanceAs (Decidable
    (ZeroBlock csl.dims ∧
    csl.data.length = csl.indcs.length ∧
    List.Pairwise (· ≤ ·) csl.offs ∧
    csl.data.length ≤ maxNnz csl.dims ∧
    (∀ k ∈ List.range (csl.offs.length - 1),
      (lineSliceAt csl.indcs csl.offs k).Nodup) ∧
    (csl.offs ≠ [] →
      (csl.offs.getLast?).getD 0 - (csl.offs.head?).getD 0 = csl.data.length) ∧
    (csl.dims ≠ [] →
      (∀ x ∈ csl.indcs, x < (csl.dims.getLast?).getD 0) ∧
      correct_offs_len csl.dims = .ok csl.offs.length)))

instance (idcs dims : List Nat) : Decidable (InBounds idcs dims) :=
  inferInstanceAs (Decidable
    (∀ i ∈ List.range dims.length, idcs.getD i 0 < dims.getD i 0))

/-! Generic lemmas about the machine-arithmetic helpers. -/

theorem satAdd_eq {a b : Nat} (h : a + b ≤ USIZE_MAX) : satAdd a b = a + b :=
  min_eq_left h

theorem satMul_eq {a b : Nat} (h : a * b ≤ USIZE_MAX) : satMul a b = a * b :=
  min_eq_left h

theorem usizeProd_foldl (l : List Nat) :
    ∀ a : Nat, l.foldl (fun x d => x * d % 2 ^ 64) (a % 2 ^ 64) =
      a * l.prod % 2 ^ 64 := by
  induction l with
  | nil => intro a; simp
  | cons d ds ih =>
    intro a
    have h1 : a % 2 ^ 64 * d % 2 ^ 64 = a * d % 2 ^ 64 := Nat.mod_mul_mod
    calc (d :: ds).foldl (fun x d => x * d % 2 ^ 64) (a % 2 ^ 64)
        = ds.foldl (fun x d => x * d % 2 ^ 64) (a * d % 2 ^ 64) := by
          simp [List.foldl_cons, h1]
      _ = a * d * ds.prod % 2 ^ 64 := ih (a * d)
      _ = a * (d :: ds).prod % 2 ^ 64 := by
          rw [List.prod_cons, ← mul_assoc]

theorem usizeProd_eq_mod (l : List Nat) : usizeProd l = l.prod % 2 ^ 64 := by
  have h1 : (1 : Nat) = 1 % 2 ^ 64 := by norm_num
  calc usizeProd l = l.foldl (fun x d => x * d % 2 ^ 64) 1 := rfl
    _ = l.foldl (fun x d => x * d % 2 ^ 64) (1 % 2 ^ 64) := by rw [← h1]
    _ = 1 * l.prod % 2 ^ 64 := usizeProd_foldl l 1
    _ = l.prod % 2 ^ 64 := by rw [one_mul]

theorem usizeProd_eq (l : List Nat) (h : l.prod < 2 ^ 64) :
    usizeProd l = l.prod := by
  rw [usizeProd_eq_mod, Nat.mod_eq_of_lt h]

/-! Lemmas about slices, chains and the boolean checks. -/

theorem sliceGet_eq_some {l : List α} {s e : Nat} (h1 : s ≤ e)
    (h2 : e ≤ l.length) : sliceGet l s e = some ((l.drop s).take (e - s)) := by
  simp [sliceGet, h1, h2]

theorem sliceGet_some_iff {l : List α} {s e : Nat} {r : List α} :
    sliceGet l s e = some r ↔
      s ≤ e ∧ e ≤ l.length ∧ r = (l.drop s).take (e - s) := by
  unfold sliceGet
  by_cases h : s ≤ e ∧ e ≤ l.length
  · simp only [if_pos h]
    constructor
    · rintro ⟨rfl⟩; exact ⟨h.1, h.2, rfl⟩
    · rintro ⟨-, -, rfl⟩; rfl
  · simp only [if_neg h]
    constructor
    · rintro ⟨⟩
    · rintro ⟨h1, h2, -⟩; exact absurd ⟨h1, h2⟩ h

theorem sliceGet_length {l : List α} {s e : Nat} {r : List α}
    (h : sliceGet l s e = some r) : r.length = e - s := by
  obtain ⟨h1, h2, rfl⟩ := sliceGet_some_iff.mp h
  simp [List.length_take, List.length_drop]
  omega

theorem sliceGet_get? {l : List α} {s e : Nat} {r : List α}
    (h : sliceGet l s e = some r) {k : Nat} (hk : k < e - s) :
    r.get? k = l.get? (s + k) := by
  obtain ⟨h1, h2, rfl⟩ := sliceGet_some_iff.mp h
  rw [List.get?_take hk, List.get?_drop]

theorem getD_eq_get?_getD (l : List Nat) (n : Nat) :
    l.getD n 0 = (l.get? n).getD 0 :=
  List.getD_eq_get? l n 0

theorem get?_eq_getD {l : List Nat} {n : Nat} (h : n < l.length) :
    l.get? n = some (l.getD n 0) := by
  rw [getD_eq_get?_getD, List.get?_eq_get h]
  rfl

theorem chain'_le_getD {l : List Nat} (h : List.Pairwise (· ≤ ·) l) {i j : Nat}
    (hij : i ≤ j) (hj : j < l.length) : l.getD i 0 ≤ l.getD j 0 := by
  rcases Nat.eq_or_lt_of_le hij with rfl | hlt
  · exact le_refl _
  · have hi : i < l.length := lt_trans hlt hj
    have := List.pairwise_iff_get.mp h ⟨i, hi⟩ ⟨j, hj⟩ hlt
    rw [getD_eq_get?_getD, getD_eq_get?_getD, List.get?_eq_get hi,
      List.get?_eq_get hj]
    exact this

theorem getLast_getD_eq {l : List Nat} :
    (l.getLast?).getD 0 = l.getD (l.length - 1) 0 := by
  rw [List.getLast?_eq_get?, getD_eq_get?_getD]

theorem head_getD_eq {l : List Nat} : (l.head?).getD 0 = l.getD 0 0 := by
  rw [List.head?_eq_getElem?, getD_eq_get?_getD, List.get?_eq_getElem?]

theorem chain'_le_getLast {l : List Nat} (h : List.Pairwise (· ≤ ·) l) {j : Nat}
    (hj : j < l.length) : l.getD j 0 ≤ (l.getLast?).getD 0 := by
  rw [getLast_getD_eq]
  exact chain'_le_getD h (by omega) (by omega)

theorem areInAscendingOrder_iff :
    ∀ l : List Nat, areInAscendingOrder l = true ↔ List.Chain' (· ≤ ·) l := by
  intro l
  match l with
  | [] => simp [areInAscendingOrder]
  | [a] => simp [areInAscendingOrder]
  | a :: b :: rest =>
    rw [List.chain'_cons, ← areInAscendingOrder_iff (b :: rest)]
    simp [areInAscendingOrder]

theorem hasDuplicates_iff :
    ∀ l : List Nat, hasDuplicates l = false ↔ l.Nodup := by
  intro l
  match l with
  | [] => simp [hasDuplicates]
  | a :: rest =>
    rw [List.nodup_cons, ← hasDuplicates_iff rest]
    simp only [hasDuplicates, Bool.or_eq_false_iff, List.contains_eq_any_beq]
    constructor
    · rintro ⟨h1, h2⟩
      refine ⟨fun hmem => ?_, h2⟩
      have : rest.any (fun x => a == x) = true := by
        simp only [List.any_eq_true]
        exact ⟨a, hmem, by simp⟩
      rw [this] at h1; exact Bool.noConfusion h1
    · rintro ⟨h1, h2⟩
      refine ⟨?_, h2⟩
      by_contra hc
      have : rest.any (fun x => a == x) = true := by
        cases hb : rest.any (fun x => a == x) with
        | true => rfl
        | false => exact absurd hb hc
      simp only [List.any_eq_true, beq_iff_eq] at this
      obtain ⟨x, hx, rfl⟩ := this
      exact h1 hx

theorem areInAscendingOrder_iff_pairwise (l : List Nat) :
    areInAscendingOrder l = true ↔ List.Pairwise (· ≤ ·) l := by
  rw [areInAscendingOrder_iff, List.chain'_iff_pairwise]

theorem areInUpperBound_iff (l : List Nat) (ub : Nat) :
    areInUpperBound l ub = true ↔ ∀ x ∈ l, x < ub := by
  simp [areInUpperBound]

theorem getD_eq_getElem {l : List Nat} {i : Nat} (h : i < l.length) :
    l.getD i 0 = l[i] := by
  rw [getD_eq_get?_getD, List.get?_eq_get h]
  rfl

theorem zeroBlockCheck_iff (dims : List Nat) :
    zeroBlockCheck dims = true ↔ ZeroBlock dims := by
  unfold zeroBlockCheck
  cases hf : dims.findIdx? (fun d => decide (d ≠ 0)) with
  | none =>
    rw [List.findIdx?_eq_none_iff] at hf
    simp only [true_iff]
    intro i hi j hj _ hne
    exfalso
    rw [List.mem_range] at hi
    have : dims.getD i 0 = dims[i] := getD_eq_getElem hi
    have hmem : dims[i] ∈ dims := List.getElem_mem hi
    have := hf _ hmem
    simp only [decide_eq_false_iff_not, not_not] at this
    exact hne (by rw [getD_eq_getElem hi]; exact this)
  | some idx =>
    obtain ⟨hlt, hfind⟩ := List.findIdx?_eq_some_iff_findIdx_eq.mp hf
    have hA : dims[idx] ≠ 0 := by
      have := @List.findIdx_get _ (fun d => decide (d ≠ 0)) dims (by rw [hfind]; exact hlt)
      simp only [hfind] at this
      simpa using this
    have hB : ∀ i, i < idx → dims[i]? = some 0 := by
      intro i hi
      have hil : i < dims.length := Nat.lt_trans hi hlt
      have := @List.not_of_lt_findIdx _ (fun d => decide (d ≠ 0)) dims i
        (by rw [hfind]; exact hi)
      simp only [decide_eq_false_iff_not, not_not] at this
      exact (List.getElem?_eq_some_iff).mpr ⟨hil, this⟩
    constructor
    · intro hall i hi j hj hij hne
      rw [List.mem_range] at hi hj
      rw [List.all_eq_true] at hall
      have hiidx : idx ≤ i := by
        by_contra hc
        push_neg at hc
        have := hB i hc
        rw [List.getElem?_eq_some_iff] at this
        obtain ⟨h1, h2⟩ := this
        exact hne (by rw [getD_eq_getElem hi, h2])
      have hjidx : idx ≤ j := le_trans hiidx hij
      have hmem : dims[j] ∈ dims.drop idx := by
        have : (dims.drop idx)[j - idx]? = some dims[j] := by
          rw [List.getElem?_drop]
          have : idx + (j - idx) = j := by omega
          rw [this]
          exact (List.getElem?_eq_some_iff).mpr ⟨hj, rfl⟩
        obtain ⟨hm, he⟩ := (List.getElem?_eq_some_iff).mp this
        rw [← he]
        exact List.getElem_mem hm
      have := hall _ hmem
      simp only [decide_eq_true_eq] at this
      rw [getD_eq_getElem hj]
      exact this
    · intro hzb
      rw [List.all_eq_true]
      intro x hx
      obtain ⟨k, hk, hkx⟩ := List.getElem_of_mem hx
      have hdl : (dims.drop idx).length = dims.length - idx := List.length_drop idx dims
      have hjl : idx + k < dims.length := by omega
      have hxj : x = dims[idx + k] := by
        rw [← hkx]
        exact List.getElem_drop dims
      have hidx0 : dims.getD idx 0 ≠ 0 := by rw [getD_eq_getElem hlt]; exact hA
      have := hzb idx (List.mem_range.mpr hlt) (idx + k) (List.mem_range.mpr hjl)
        (by omega) hidx0
      rw [getD_eq_getElem hjl] at this
      simp only [decide_eq_true_eq]
      rw [hxj]
      exact this

theorem dupScan_ok_iff (idcs : List Nat) (first : Nat) :
    ∀ l : List Nat, dupScan idcs first l = .ok () ↔
      ∀ k ∈ List.range (l.length - 1),
        ∃ s, sliceGet idcs (l.getD k 0 - first) (l.getD (k + 1) 0 - first) = some s
          ∧ hasDuplicates s = false := by
  intro l
  match l with
  | [] => simp [dupScan]
  | [x] => simp [dupScan]
  | o0 :: o1 :: rest =>
    have hlen : (o0 :: o1 :: rest).length - 1 = rest.length + 1 := by simp
    constructor
    · intro hok k hk
      rw [List.mem_range, hlen] at hk
      unfold dupScan at hok
      cases hs : sliceGet idcs (o0 - first) (o1 - first) with
      | none => rw [hs] at hok; exact Except.noConfusion hok
      | some s =>
        rw [hs] at hok
        have hok2 : (if hasDuplicates s = true then
            (Except.error NewFailure.duplicatedIndices : Except NewFailure Unit)
          else dupScan idcs first (o1 :: rest)) = .ok () := hok
        by_cases hd : hasDuplicates s = true
        · rw [if_pos hd] at hok2; exact Except.noConfusion hok2
        · rw [if_neg hd] at hok2
          have hok := hok2
          cases k with
          | zero =>
            refine ⟨s, ?_, by simpa using hd⟩
            simpa using hs
          | succ k1 =>
            have := (dupScan_ok_iff idcs first (o1 :: rest)).mp hok k1
              (by rw [List.mem_range]; simpa using hk)
            simpa using this
    · intro hall
      unfold dupScan
      have h0 := hall 0 (by rw [List.mem_range, hlen]; omega)
      simp only [List.getD_cons_zero, List.getD_cons_succ] at h0
      obtain ⟨s, hs, hd⟩ := h0
      rw [hs]
      show (if hasDuplicates s = true then
          (Except.error NewFailure.duplicatedIndices : Except NewFailure Unit)
        else dupScan idcs first (o1 :: rest)) = .ok ()
      rw [if_neg (by rw [hd]; exact Bool.noConfusion)]
      rw [dupScan_ok_iff idcs first (o1 :: rest)]
      intro k hk
      rw [List.mem_range] at hk
      have := hall (k + 1) (by rw [List.mem_range, hlen]; simpa using hk)
      simpa using this

theorem newDimsChecks_ok_iff {dims : List Nat} {data : List α}
    {idcs offs : List Nat} {c : Csl α} :
    newDimsChecks dims data idcs offs = .ok c ↔
      c = ⟨dims, data, idcs, offs⟩ ∧
      (dims ≠ [] → (∀ x ∈ idcs, x < (dims.getLast?).getD 0) ∧
        correct_offs_len dims = .ok offs.length) := by
  unfold newDimsChecks
  cases hd : dims.getLast? with
  | none =>
    have hnil : dims = [] := List.getLast?_eq_none_iff.mp hd
    constructor
    · intro h; exact ⟨(Except.ok.injEq _ _).mp h |>.symm, fun hne => absurd hnil hne⟩
    · rintro ⟨rfl, -⟩; rfl
  | some lastDim =>
    have hne : dims ≠ [] := by
      intro h; rw [h] at hd; exact Option.noConfusion hd
    have hlastD : (dims.getLast?).getD 0 = lastDim := by rw [hd]; rfl
    show (if ¬ areInUpperBound idcs lastDim = true then
        (Except.error NewFailure.indcsGreaterThanEqualDimLength :
          Except NewFailure (Csl α))
      else match correct_offs_len dims with
        | .error _ => .error NewFailure.offsLengthOverflow
        | .ok n =>
          if offs.length ≠ n then .error NewFailure.invalidOffsetsLength
          else .ok ⟨dims, data, idcs, offs⟩) = .ok c ↔ _
    by_cases hub : areInUpperBound idcs lastDim = true
    · rw [if_neg (by simpa using hub)]
      cases hco : correct_offs_len dims with
      | error e =>
        constructor
        · intro h
          have h2 : (Except.error NewFailure.offsLengthOverflow :
              Except NewFailure (Csl α)) = .ok c := h
          exact Except.noConfusion h2
        · rintro ⟨rfl, himp⟩
          exact Except.noConfusion (himp hne).2
      | ok n =>
        show (if offs.length ≠ n then
            (Except.error NewFailure.invalidOffsetsLength : Except NewFailure (Csl α))
          else .ok ⟨dims, data, idcs, offs⟩) = .ok c ↔ _
        by_cases hl : offs.length = n
        · rw [if_neg (by omega)]
          constructor
          · intro h
            refine ⟨((Except.ok.injEq _ _).mp h).symm, fun _ => ?_⟩
            refine ⟨by simpa using (areInUpperBound_iff idcs lastDim).mp hub, ?_⟩
            rw [hl]
          · rintro ⟨rfl, -⟩; rfl
        · rw [if_pos (by omega)]
          constructor
          · intro h; exact Except.noConfusion h
          · rintro ⟨rfl, himp⟩
            have h2 := (himp hne).2
            rw [Except.ok.injEq] at h2
            exact absurd h2.symm hl
    · rw [if_pos (by simpa using hub)]
      constructor
      · intro h; exact Except.noConfusion h
      · rintro ⟨rfl, himp⟩
        exact absurd ((areInUpperBound_iff idcs lastDim).mpr
          (by simpa using (himp hne).1)) hub

theorem dupScan_full_iff (idcs : List Nat) (o0 : Nat) (offs : List Nat)
    (hhead : offs.head? = some o0) (hchain : List.Pairwise (· ≤ ·) offs)
    (hlast : (offs.getLast?).getD 0 - o0 ≤ idcs.length) :
    dupScan idcs o0 offs = .ok () ↔
      ∀ k ∈ List.range (offs.length - 1), (lineSliceAt idcs offs k).Nodup := by
  have h0 : offs.getD 0 0 = o0 := by
    rw [← head_getD_eq, hhead]; rfl
  have hslice : ∀ k, lineSliceAt idcs offs k =
      (idcs.drop (offs.getD k 0 - o0)).take
        ((offs.getD (k + 1) 0 - o0) - (offs.getD k 0 - o0)) := by
    intro k
    unfold lineSliceAt relOff
    rw [h0]
  rw [dupScan_ok_iff]
  constructor
  · intro hall k hk
    obtain ⟨s, hs, hd⟩ := hall k hk
    obtain ⟨h1, h2, rfl⟩ := sliceGet_some_iff.mp hs
    rw [hslice k]
    exact (hasDuplicates_iff _).mp hd
  · intro hall k hk
    have hk1 : k + 1 < offs.length := by
      rw [List.mem_range] at hk; omega
    have hmono : offs.getD k 0 ≤ offs.getD (k + 1) 0 :=
      chain'_le_getD hchain (by omega) hk1
    have hub : offs.getD (k + 1) 0 ≤ (offs.getLast?).getD 0 :=
      chain'_le_getLast hchain hk1
    have hbound : offs.getD (k + 1) 0 - o0 ≤ idcs.length := by omega
    refine ⟨_, sliceGet_eq_some (by omega) hbound, ?_⟩
    rw [hasDuplicates_iff, ← hslice k]
    exact hall k hk

theorem csl_new_ok_iff {dims : List Nat} {data : List α} {idcs offs : List Nat}
    {c : Csl α} :
    csl_new dims data idcs offs = .ok c ↔
      WeakValid ⟨dims, data, idcs, offs⟩ ∧ c = ⟨dims, data, idcs, offs⟩ := by
  unfold csl_new WeakValid
  by_cases h1 : zeroBlockCheck dims = true
  case neg =>
    rw [if_pos (by simpa using h1)]
    constructor
    · intro h; exact Except.noConfusion h
    · rintro ⟨⟨hzb, -⟩, -⟩
      exact absurd ((zeroBlockCheck_iff dims).mpr hzb) h1
  case pos =>
    rw [if_neg (by simpa using h1)]
    have hzb := (zeroBlockCheck_iff dims).mp h1
    by_cases h2 : data.length = idcs.length
    case neg =>
      rw [if_pos h2]
      constructor
      · intro h; exact Except.noConfusion h
      · rintro ⟨⟨-, hlen, -⟩, -⟩; exact absurd hlen h2
    case pos =>
      rw [if_neg (by omega)]
      by_cases h3 : areInAscendingOrder offs = true
      case neg =>
        rw [if_pos (by simpa using h3)]
        constructor
        · intro h; exact Except.noConfusion h
        · rintro ⟨⟨-, -, hchain, -⟩, -⟩
          exact absurd ((areInAscendingOrder_iff_pairwise offs).mpr hchain) h3
      case pos =>
        have hchain := (areInAscendingOrder_iff_pairwise offs).mp h3
        rw [if_neg (by simpa using h3)]
        by_cases h4 : data.length ≤ maxNnz dims
        case neg =>
          rw [if_pos (by omega)]
          constructor
          · intro h; exact Except.noConfusion h
          · rintro ⟨⟨-, -, -, hmax, -⟩, -⟩; exact absurd hmax h4
        case pos =>
          rw [if_neg (by omega)]
          by_cases hoffs : offs = []
          case pos =>
            subst hoffs
            have hdup : dupCheckOfNew idcs [] = .ok () := rfl
            rw [hdup]
            have hlo : lastOffsetOk data.length idcs.length [] = true := rfl
            show (if ¬ lastOffsetOk data.length idcs.length [] = true then
                (Except.error NewFailure.lastOffsetDifferentNnz :
                  Except NewFailure (Csl α))
              else newDimsChecks dims data idcs []) = Except.ok c ↔ _
            rw [if_neg (by rw [hlo]; exact fun h => h rfl)]
            rw [newDimsChecks_ok_iff]
            constructor
            · rintro ⟨rfl, hcond⟩
              refine ⟨⟨hzb, h2, hchain, h4, ?_, ?_, hcond⟩, rfl⟩
              · intro k hk; simp at hk
              · intro h; exact absurd rfl h
            · rintro ⟨⟨-, -, -, -, -, -, hcond⟩, rfl⟩
              exact ⟨rfl, hcond⟩
          case neg =>
            obtain ⟨o0, hh⟩ : ∃ o0, offs.head? = some o0 := by
              cases hh : offs.head? with
              | none => exact absurd (List.head?_eq_none_iff.mp hh) hoffs
              | some x => exact ⟨x, rfl⟩
            obtain ⟨ol, hl⟩ : ∃ ol, offs.getLast? = some ol := by
              cases hl : offs.getLast? with
              | none => exact absurd (List.getLast?_eq_none_iff.mp hl) hoffs
              | some x => exact ⟨x, rfl⟩
            have hldg : (offs.getLast?).getD 0 = ol := by rw [hl]; rfl
            have hhdg : (offs.head?).getD 0 = o0 := by rw [hh]; rfl
            have hdup : dupCheckOfNew idcs offs = dupScan idcs o0 offs := by
              unfold dupCheckOfNew
              rw [hh]
            have hlok : lastOffsetOk data.length idcs.length offs =
                (decide (ol - o0 = data.length) &&
                 decide (ol - o0 = idcs.length)) := by
              unfold lastOffsetOk
              rw [hl, hh]
            rw [hdup]
            by_cases h5 : ol - o0 = data.length
            case pos =>
              have hle : (offs.getLast?).getD 0 - o0 ≤ idcs.length := by
                rw [hldg]; omega
              by_cases h6 : ∀ k ∈ List.range (offs.length - 1),
                  (lineSliceAt idcs offs k).Nodup
              case pos =>
                rw [(dupScan_full_iff idcs o0 offs hh hchain hle).mpr h6]
                show (if ¬ lastOffsetOk data.length idcs.length offs = true then
                    (Except.error NewFailure.lastOffsetDifferentNnz :
                      Except NewFailure (Csl α))
                  else newDimsChecks dims data idcs offs) = Except.ok c ↔ _
                rw [if_neg (by rw [hlok]; simp; omega)]
                rw [newDimsChecks_ok_iff]
                constructor
                · rintro ⟨rfl, hcond⟩
                  refine ⟨⟨hzb, h2, hchain, h4, h6, ?_, hcond⟩, rfl⟩
                  intro hne2
                  show (offs.getLast?).getD 0 - (offs.head?).getD 0 = data.length
                  rw [hldg, hhdg]
                  exact h5
                · rintro ⟨⟨-, -, -, -, -, -, hcond⟩, rfl⟩
                  exact ⟨rfl, hcond⟩
              case neg =>
                cases hscan : dupScan idcs o0 offs with
                | ok u =>
                  cases u
                  exact absurd ((dupScan_full_iff idcs o0 offs hh hchain hle).mp
                    hscan) h6
                | error e =>
                  constructor
                  · intro h; exact Except.noConfusion h
                  · rintro ⟨⟨-, -, -, -, h6x, -⟩, -⟩; exact absurd h6x h6
            case neg =>
              have hrhs : ¬ (offs ≠ [] →
                  (offs.getLast?).getD 0 - (offs.head?).getD 0 = data.length) := by
                intro hf
                have := hf hoffs
                rw [hldg, hhdg] at this
                exact h5 this
              cases hscan : dupScan idcs o0 offs with
              | ok u =>
                cases u
                show (if ¬ lastOffsetOk data.length idcs.length offs = true then
                    (Except.error NewFailure.lastOffsetDifferentNnz :
                      Except NewFailure (Csl α))
                  else newDimsChecks dims data idcs offs) = Except.ok c ↔ _
                rw [if_pos (by rw [hlok]; simp; omega)]
                constructor
                · intro h; exact Except.noConfusion h
                · rintro ⟨⟨-, -, -, -, -, hlastc, -⟩, -⟩
                  exact absurd hlastc hrhs
              | error e =>
                constructor
                · intro h; exact Except.noConfusion h
                · rintro ⟨⟨-, -, -, -, -, hlastc, -⟩, -⟩
                  exact absurd hlastc hrhs

theorem storeValid_weakValid {csl : Csl α} (h : StoreValid csl) :
    WeakValid csl := by
  obtain ⟨h1, h2, h3, h4, h5, h6, h7⟩ := h
  refine ⟨h1, h2, h3, h4, ?_, h6, h7⟩
  intro k hk
  exact List.Pairwise.imp (fun hab => Nat.ne_of_lt hab) (h5 k hk)

/-- Claim C1, counterexample.  The claim says `new` returns a store exactly
when all the documented structural invariants hold; but the store
`{dims [10], data [8,9], indcs [5,0], offs [0,2]}` is accepted by `Csl::new`
although its single line's indices `[5,0]` are not strictly ascending
(invariant 5 of the spec), so `StoreValid` fails for it. -/
theorem c1_counterexample :
    csl_new [10] ([8, 9] : List Int) [5, 0] [0, 2] =
      .ok ⟨[10], [8, 9], [5, 0], [0, 2]⟩ ∧
    ¬ StoreValid (⟨[10], ([8, 9] : List Int), [5, 0], [0, 2]⟩ : Csl Int) := by
  exact ⟨by decide, by decide⟩

/-- Claim C1 (amended): `Csl::new` returns the store built verbatim from its
four inputs exactly when the structural invariants hold with invariant 5
weakened to per-line uniqueness (`WeakValid`), and otherwise reports the
first violated check as an error value without constructing anything.  (In
the Rust source the reports are `assert!` failures rather than returned
`CslError` values; the model represents each such abort as a typed
`NewFailure`.) -/
theorem c1_new_spec {α : Type} (dims : List Nat) (data : List α)
    (idcs offs : List Nat) :
    (∀ c : Csl α, csl_new dims data idcs offs = .ok c ↔
      WeakValid ⟨dims, data, idcs, offs⟩ ∧ c = ⟨dims, data, idcs, offs⟩) ∧
    (¬ WeakValid ⟨dims, data, idcs, offs⟩ →
      ∃ e, csl_new dims data idcs offs = .error e) := by
  refine ⟨fun c => csl_new_ok_iff, fun hnv => ?_⟩
  cases hres : csl_new dims data idcs offs with
  | ok c => exact absurd (csl_new_ok_iff.mp hres).1 hnv
  | error e => exact ⟨e, rfl⟩

/-- Witness for C1: a valid input is accepted verbatim and an invalid one
(the spec's duplicated-indices scenario) is rejected with an error value. -/
theorem c1_new_spec_witness :
    csl_new [10] ([8, 9] : List Int) [0, 5] [0, 2] =
      .ok ⟨[10], [8, 9], [0, 5], [0, 2]⟩ ∧
    ∃ e, csl_new [2, 2] ([8, 9] : List Int) [1, 1] [0, 2] = .error e := by
  constructor
  · exact ((c1_new_spec [10] ([8, 9] : List Int) [0, 5] [0, 2]).1 _).mpr
      ⟨by decide, rfl⟩
  · exact (c1_new_spec [2, 2] ([8, 9] : List Int) [1, 1] [0, 2]).2 (by decide)

/-- Claim C4 (code-bug evidence): on the valid store
`{dims [2,3], data [10,20,30], indcs [0,1,2], offs [0,2,3]}` and the
in-bounds multi-index `[1,0]`, `truncate` leaves all three entries in
`data`/`indcs` but rewrites the offsets to `[0,2,0]`, so the result violates
the structural invariants (offsets not non-decreasing, last−first ≠ nnz,
nnz above capacity), contradicting the claim that `truncate` preserves
them. -/
theorem c4_truncate_breaks_invariants :
    StoreValid (⟨[2, 3], ([10, 20, 30] : List Int), [0, 1, 2], [0, 2, 3]⟩ :
      Csl Int) ∧
    InBounds [1, 0] [2, 3] ∧
    truncate (⟨[2, 3], ([10, 20, 30] : List Int), [0, 1, 2], [0, 2, 3]⟩ :
      Csl Int) [1, 0] = ⟨[2, 0], [10, 20, 30], [0, 1, 2], [0, 2, 0]⟩ ∧
    ¬ WeakValid (⟨[2, 0], ([10, 20, 30] : List Int), [0, 1, 2], [0, 2, 0]⟩ :
      Csl Int) ∧
    ¬ StoreValid (⟨[2, 0], ([10, 20, 30] : List Int), [0, 1, 2], [0, 2, 0]⟩ :
      Csl Int) := by
  exact ⟨by decide, by decide, by decide, by decide, by decide⟩

/-- Claim C6, counterexample: `clear` empties the offsets container instead
of resetting it to the single baseline element `[0]`. -/
theorem c6_counterexample :
    (clear (⟨[10], ([8] : List Int), [0], [0, 1]⟩ : Csl Int)).offs = [] ∧
    (clear (⟨[10], ([8] : List Int), [0], [0, 1]⟩ : Csl Int)).offs ≠ [0] := by
  exact ⟨rfl, by decide⟩

/-- Claim C6 (amended): `clear()` zeroes the dimension array (its length is
fixed by the type) and empties the data, index and offset containers; the
offsets container is left empty, with no baseline element. -/
theorem c6_clear_spec {α : Type} (csl : Csl α) :
    clear csl = ⟨List.replicate csl.dims.length 0, [], [], []⟩ ∧
    (clear csl).nnz = 0 ∧ (clear csl).data = [] ∧ (clear csl).indcs = [] ∧
    (clear csl).offs = [] ∧ ∀ d ∈ (clear csl).dims, d = 0 := by
  refine ⟨rfl, rfl, rfl, rfl, rfl, fun d hd => ?_⟩
  exact List.eq_of_mem_replicate hd

/-- Claim C7, counterexample: on a valid store, `sub_dim` with target axis
count 0 returns `none` (absent), not an empty view. -/
theorem c7_counterexample :
    StoreValid (⟨[10], ([8, 9] : List Int), [0, 5], [0, 2]⟩ : Csl Int) ∧
    sub_dim (⟨[10], ([8, 9] : List Int), [0, 5], [0, 2]⟩ : Csl Int) 0 0 1 =
      none := by
  exact ⟨by decide, rfl⟩

/-- Claim C7 (amended): `sub_dim(range, N)` returns absent whenever
`range.start > range.end`, `N` exceeds the source axis count, or `N = 0`. -/
theorem c7_sub_dim_absent {α : Type} (csl : Csl α) (n rstart rend : Nat)
    (h : rstart > rend ∨ csl.dims.length < n ∨ n = 0) :
    sub_dim csl n rstart rend = none := by
  unfold sub_dim
  by_cases hc : rstart > rend ∨ n > csl.dims.length
  · rw [if_pos hc]
  · rw [if_neg hc]
    have hn : n = 0 := by
      push_neg at hc
      rcases h with h | h | h
      · exact absurd h (by omega)
      · exact absurd h (by omega)
      · exact h
    subst hn
    rfl

/-- Witness for C7: the three absent cases at concrete inputs. -/
theorem c7_sub_dim_absent_witness :
    sub_dim (⟨[2, 3], ([] : List Int), [], [0, 0, 0]⟩ : Csl Int) 4 0 1 = none ∧
    sub_dim (⟨[2, 3], ([] : List Int), [], [0, 0, 0]⟩ : Csl Int) 2 1 0 = none := by
  constructor
  · exact c7_sub_dim_absent _ 4 0 1 (Or.inr (Or.inl (by decide)))
  · exact c7_sub_dim_absent _ 2 1 0 (Or.inl (by decide))

/-- Claim C8, counterexample: a zero-axis store is accepted by construction
and its unique multi-index `[]` is in bounds with `value` absent, yet
`swap_value` aborts on the leading assertion (`[] < []` is false for the
lexicographic slice order) instead of returning failure without mutation. -/
theorem c8_counterexample :
    StoreValid (⟨[], ([] : List Int), [], []⟩ : Csl Int) ∧
    (∃ c, csl_new [] ([] : List Int) [] [] = .ok c) ∧
    InBounds [] [] ∧
    value (⟨[], ([] : List Int), [], []⟩ : Csl Int) [] = none ∧
    swap_value (⟨[], ([] : List Int), [], []⟩ : Csl Int) [] [] = none := by
  exact ⟨by decide, ⟨⟨[], [], [], []⟩, rfl⟩, by decide, rfl, rfl⟩

/-! Binary-search lemmas. -/

theorem binSearchGo_ok {l : List Nat} {t : Nat} :
    ∀ fuel {left right i : Nat}, binSearchGo l t fuel left right = .ok i →
      l.get? i = some t := by
  intro fuel
  induction fuel with
  | zero => intro left right i h; exact Except.noConfusion h
  | succ f ih =>
    intro left right i h
    unfold binSearchGo at h
    split at h
    · split at h
      · exact Except.noConfusion h
      · rename_i v hv
        split at h
        · exact ih h
        · split at h
          · exact ih h
          · rename_i h1 h2
            rw [Except.ok.injEq] at h
            subst h
            rw [hv]
            exact congrArg some (by omega)
    · exact Except.noConfusion h

theorem binarySearch_ok {l : List Nat} {t i : Nat}
    (h : binarySearch l t = .ok i) : l.get? i = some t :=
  binSearchGo_ok l.length h

theorem pairwise_lt_get? {l : List Nat} (h : List.Pairwise (· < ·) l)
    {i j vi vj : Nat} (hij : i < j) (hi : l.get? i = some vi)
    (hj : l.get? j = some vj) : vi < vj := by
  obtain ⟨hilen, hiv⟩ := List.get?_eq_some.mp hi
  obtain ⟨hjlen, hjv⟩ := List.get?_eq_some.mp hj
  have := List.pairwise_iff_get.mp h ⟨i, hilen⟩ ⟨j, hjlen⟩ hij
  rw [hiv, hjv] at this
  exact this

theorem pairwise_lt_get?_inj {l : List Nat} (h : List.Pairwise (· < ·) l)
    {i j t : Nat} (hi : l.get? i = some t) (hj : l.get? j = some t) :
    i = j := by
  rcases Nat.lt_trichotomy i j with hlt | heq | hgt
  · exact absurd (pairwise_lt_get? h hlt hi hj) (lt_irrefl t)
  · exact heq
  · exact absurd (pairwise_lt_get? h hgt hj hi) (lt_irrefl t)

theorem binSearchGo_finds {l : List Nat} {t : Nat}
    (hsort : List.Pairwise (· < ·) l) :
    ∀ fuel {left right : Nat}, right - left ≤ fuel → right ≤ l.length →
      (∃ p, left ≤ p ∧ p < right ∧ l.get? p = some t) →
      ∃ i, binSearchGo l t fuel left right = .ok i := by
  intro fuel
  induction fuel with
  | zero =>
    rintro left right hf hr ⟨p, h1, h2, h3⟩
    omega
  | succ f ih =>
    rintro left right hf hr ⟨p, hp1, hp2, hp3⟩
    have hlr : left < right := by omega
    have hmidlt : left + (right - left) / 2 < right := by omega
    have hmidlen : left + (right - left) / 2 < l.length := by omega
    obtain ⟨v, hv⟩ : ∃ v, l.get? (left + (right - left) / 2) = some v :=
      ⟨_, List.get?_eq_get hmidlen⟩
    unfold binSearchGo
    rw [if_pos hlr, hv]
    show ∃ i,
      (if v < t then binSearchGo l t f (left + (right - left) / 2 + 1) right
        else if t < v then binSearchGo l t f left (left + (right - left) / 2)
        else Except.ok (left + (right - left) / 2)) = Except.ok i
    by_cases h1 : v < t
    · rw [if_pos h1]
      have hpm : left + (right - left) / 2 < p := by
        by_contra hc
        push_neg at hc
        rcases Nat.eq_or_lt_of_le hc with heq | hplt
        · rw [heq] at hp3
          rw [hp3] at hv
          rw [Option.some.injEq] at hv
          omega
        · exact absurd (pairwise_lt_get? hsort hplt hp3 hv) (by omega)
      exact ih (by omega) hr ⟨p, by omega, hp2, hp3⟩
    · rw [if_neg h1]
      by_cases h2 : t < v
      · rw [if_pos h2]
        have hpm : p < left + (right - left) / 2 := by
          by_contra hc
          push_neg at hc
          rcases Nat.eq_or_lt_of_le hc with heq | hplt
          · rw [← heq] at hp3
            rw [hp3] at hv
            rw [Option.some.injEq] at hv
            omega
          · exact absurd (pairwise_lt_get? hsort hplt hv hp3) (by omega)
        exact ih (by omega) (by omega) ⟨p, hp1, hpm, hp3⟩
      · rw [if_neg h2]
        exact ⟨_, rfl⟩

theorem binarySearch_finds {l : List Nat} {t : Nat}
    (hsort : List.Pairwise (· < ·) l) (hmem : t ∈ l) :
    ∃ i, binarySearch l t = .ok i := by
  obtain ⟨p, hp⟩ := List.mem_iff_get.mp hmem
  refine binSearchGo_finds hsort l.length (le_refl _) (le_refl _)
    ⟨p.1, Nat.zero_le _, p.isLt, ?_⟩
  rw [List.get?_eq_get p.isLt]
  exact congrArg some hp

/-! `data_idx` and `swap_value`. -/

theorem data_idx_spec {csl : Csl α} {idcs : List Nat} {i : Nat}
    (h : data_idx csl idcs = some i) :
    i < csl.indcs.length ∧
    ∃ t, idcs.getLast? = some t ∧ csl.indcs.get? i = some t := by
  unfold data_idx at h
  split at h
  · exact Option.noConfusion h
  · rename_i innermost hlast
    split at h
    · exact Option.noConfusion h
    · rename_i r vS vE hlo
      split at h
      · exact Option.noConfusion h
      · rename_i slice hslice
        split at h
        · rename_i x hbin
          rw [Option.some.injEq] at h
          subst h
          have hget := binarySearch_ok hbin
          have hxlen : x < slice.length := by
            obtain ⟨hl, -⟩ := List.get?_eq_some.mp hget
            exact hl
          have hlen := sliceGet_length hslice
          obtain ⟨hse, hel, -⟩ := sliceGet_some_iff.mp hslice
          refine ⟨by omega, innermost, hlast, ?_⟩
          rw [← sliceGet_get? hslice (by omega)]
          exact hget
        · exact Option.noConfusion h

theorem listSwap_spec {l : List α} {ia ib : Nat} (hia : ia < l.length)
    (hib : ib < l.length) :
    ∃ m, listSwap l ia ib = some m ∧ m.length = l.length ∧
      m.get? ia = l.get? ib ∧ m.get? ib = l.get? ia ∧
      ∀ k, k ≠ ia → k ≠ ib → m.get? k = l.get? k := by
  obtain ⟨va, hva⟩ : ∃ v, l.get? ia = some v := ⟨_, List.get?_eq_get hia⟩
  obtain ⟨vb, hvb⟩ : ∃ v, l.get? ib = some v := ⟨_, List.get?_eq_get hib⟩
  refine ⟨(l.set ia vb).set ib va, ?_, by simp, ?_, ?_, ?_⟩
  · unfold listSwap
    rw [hva, hvb]
  · by_cases hab : ib = ia
    · subst hab
      rw [List.get?_set, if_pos rfl, List.get?_set, if_pos rfl, hva]
      rfl
    · rw [List.get?_set, if_neg hab, List.get?_set, if_pos rfl, hva, hvb]
      rfl
  · by_cases hab : ia = ib
    · subst hab
      rw [List.get?_set, if_pos rfl, List.get?_set, if_pos rfl, hva]
      rfl
    · rw [List.get?_set, if_pos rfl, List.get?_set, if_neg hab, hvb, hva]
      rfl
  · intro k hka hkb
    rw [List.get?_set, if_neg (fun hh => hkb hh.symm), List.get?_set,
      if_neg (fun hh => hka hh.symm)]

theorem inBounds_sliceLt {a dims : List Nat} (hlen : a.length = dims.length)
    (hne : dims ≠ []) (hin : InBounds a dims) : sliceLt a dims = true := by
  cases dims with
  | nil => exact absurd rfl hne
  | cons d ds =>
    cases a with
    | nil => simp at hlen
    | cons x xs =>
      have h0 := hin 0 (by simp)
      simp only [List.getD_cons_zero] at h0
      unfold sliceLt
      rw [if_pos h0]

/-- Claim C8 (amended): on a valid store with at least one axis and
in-bounds multi-indices `a`, `b`: if both entries are present `swap_value`
exchanges exactly the two stored values (all other data entries and the
`indcs`/`offs`/`dims` containers are untouched) and returns success; if
either is absent it returns failure with the store unchanged. -/
theorem c8_swap_value_spec {α : Type} (csl : Csl α) (hv : StoreValid csl)
    (hD : csl.dims ≠ []) (a b : List Nat)
    (hal : a.length = csl.dims.length) (hbl : b.length = csl.dims.length)
    (hain : InBounds a csl.dims) (hbin : InBounds b csl.dims) :
    (∀ ia ib, data_idx csl a = some ia → data_idx csl b = some ib →
      ∃ swapped,
        swap_value csl a b =
          some (true, ⟨csl.dims, swapped, csl.indcs, csl.offs⟩) ∧
        swapped.length = csl.data.length ∧
        swapped.get? ia = csl.data.get? ib ∧
        swapped.get? ib = csl.data.get? ia ∧
        ∀ k, k ≠ ia → k ≠ ib → swapped.get? k = csl.data.get? k) ∧
    ((data_idx csl a = none ∨ data_idx csl b = none) →
      swap_value csl a b = some (false, csl)) := by
  have hlexa : sliceLt a csl.dims = true := inBounds_sliceLt hal hD hain
  have hlexb : sliceLt b csl.dims = true := inBounds_sliceLt hbl hD hbin
  have hlen : csl.data.length = csl.indcs.length := hv.2.1
  constructor
  · intro ia ib ha hb
    have hia : ia < csl.data.length := by
      have := (data_idx_spec ha).1
      omega
    have hib : ib < csl.data.length := by
      have := (data_idx_spec hb).1
      omega
    obtain ⟨m, hm, hmlen, hm1, hm2, hm3⟩ := listSwap_spec hia hib
    refine ⟨m, ?_, hmlen, hm1, hm2, hm3⟩
    unfold swap_value
    rw [if_neg (by simp [hlexa, hlexb]), ha, hb]
    show (match listSwap csl.data ia ib with
      | some swapped =>
        some (true, (⟨csl.dims, swapped, csl.indcs, csl.offs⟩ : Csl α))
      | none => none) = _
    rw [hm]
  · intro hnone
    cases hda : data_idx csl a with
    | none =>
      unfold swap_value
      rw [if_neg (by simp [hlexa, hlexb]), hda]
    | some ia =>
      cases hdb : data_idx csl b with
      | none =>
        unfold swap_value
        rw [if_neg (by simp [hlexa, hlexb]), hda, hdb]
      | some ib =>
        rcases hnone with hnone | hnone
        · rw [hda] at hnone; exact Option.noConfusion hnone
        · rw [hdb] at hnone; exact Option.noConfusion hnone

/-- Witness for C8: both branches at concrete stores (the spec's 1-D example
store). -/
theorem c8_swap_value_spec_witness :
    (∃ swapped,
      swap_value (⟨[10], ([8, 9] : List Int), [0, 5], [0, 2]⟩ : Csl Int)
          [0] [5] =
        some (true, ⟨[10], swapped, [0, 5], [0, 2]⟩) ∧
      swapped.length = 2 ∧
      swapped.get? 0 = some 9 ∧
      swapped.get? 1 = some 8 ∧
      ∀ k, k ≠ 0 → k ≠ 1 → swapped.get? k = ([8, 9] : List Int).get? k) ∧
    swap_value (⟨[10], ([8, 9] : List Int), [0, 5], [0, 2]⟩ : Csl Int)
        [0] [1] =
      some (false, ⟨[10], [8, 9], [0, 5], [0, 2]⟩) := by
  have h := c8_swap_value_spec
    (⟨[10], ([8, 9] : List Int), [0, 5], [0, 2]⟩ : Csl Int)
    (by decide) (by decide) [0] [5] (by decide) (by decide)
    (by decide) (by decide)
  constructor
  · obtain ⟨m, hm, hml, h1, h2, h3⟩ := h.1 0 1 (by decide) (by decide)
    exact ⟨m, hm, hml, h1, h2, h3⟩
  · have h2 := c8_swap_value_spec
      (⟨[10], ([8, 9] : List Int), [0, 5], [0, 2]⟩ : Csl Int)
      (by decide) (by decide) [0] [1] (by decide) (by decide)
      (by decide) (by decide)
    exact h2.2 (Or.inr (by decide))

/-! `push_line`: the zip against the bounded counter reads at most `d`
input pairs. -/

theorem pushLineGo_take {α : Type} (d : Nat) :
    ∀ (rest : List (Nat × α)) (j lastIdx : Nat),
      pushLineGo d j lastIdx rest =
        pushLineGo d j lastIdx (rest.take (d + 1 - j)) := by
  intro rest
  induction rest with
  | nil => intro j lastIdx; rw [List.take_nil]
  | cons x rest ih =>
    obtain ⟨ix, vx⟩ := x
    intro j lastIdx
    by_cases hj : j > d
    · have h0 : d + 1 - j = 0 := by omega
      rw [h0, List.take_zero]
      simp only [pushLineGo]
      rw [if_pos hj]
    · have h1 : d + 1 - j = (d - j) + 1 := by omega
      rw [h1, List.take_succ_cons]
      simp only [pushLineGo]
      rw [if_neg hj, if_neg hj]
      by_cases hx : ix ≤ lastIdx
      · rw [if_pos hx, if_pos hx]
      · rw [if_neg hx, if_neg hx]
        have h2 : d + 1 - (j + 1) = d - j := by omega
        rw [ih (j + 1) ix, h2]

theorem pushLineGo_length {α : Type} (d : Nat) :
    ∀ (rest : List (Nat × α)) (j lastIdx : Nat) (is : List Nat) (vs : List α),
      j ≤ d + 1 → pushLineGo d j lastIdx rest = .ok (is, vs) →
        is.length + j ≤ d + 1 ∧ vs.length = is.length := by
  intro rest
  induction rest with
  | nil =>
    intro j lastIdx is vs hj h
    simp only [pushLineGo] at h
    rw [Except.ok.injEq, Prod.mk.injEq] at h
    obtain ⟨h1, h2⟩ := h
    subst h1; subst h2
    refine ⟨?_, rfl⟩
    simp only [List.length_nil]
    omega
  | cons x rest ih =>
    obtain ⟨ix, vx⟩ := x
    intro j lastIdx is vs hj h
    simp only [pushLineGo] at h
    split at h
    · rw [Except.ok.injEq, Prod.mk.injEq] at h
      obtain ⟨h1, h2⟩ := h
      subst h1; subst h2
      refine ⟨?_, rfl⟩
      simp only [List.length_nil]
      omega
    · split at h
      · exact Except.noConfusion h
      · rename_i hjd hx
        split at h
        · exact Except.noConfusion h
        · rename_i p is2 vs2 hrec
          rw [Except.ok.injEq, Prod.mk.injEq] at h
          obtain ⟨h1, h2⟩ := h
          subst h1; subst h2
          have := ih (j + 1) ix is2 vs2 (by omega) hrec
          simp only [List.length_cons]
          omega

/-- Claim C9: `push_line` reads at most `d` pairs from its input, where `d`
is the innermost axis size currently set in the builder: the call behaves
identically on `di` and on `di.take d`, so pairs beyond the first `d` are
silently discarded with no error, and a successful push grows the index and
data containers by at most `d` entries. -/
theorem c9_push_line_spec {α : Type} (s : LineCtor α) (di : List (Nat × α)) :
    push_line s di = push_line s (di.take (lastDimOf s)) ∧
    (∀ t, push_line s di = .ok t →
      t.csl.indcs.length ≤ s.csl.indcs.length + lastDimOf s ∧
      t.csl.data.length ≤ s.csl.data.length + lastDimOf s) := by
  constructor
  · cases di with
    | nil => rw [List.take_nil]
    | cons x rest =>
      obtain ⟨ix, vx⟩ := x
      by_cases hd : lastDimOf s = 0
      · rw [hd, List.take_zero]
        simp only [push_line]
        rw [if_pos hd]
      · have htake : ((ix, vx) :: rest).take (lastDimOf s) =
            (ix, vx) :: rest.take (lastDimOf s - 1) := by
          cases hdd : lastDimOf s with
          | zero => exact absurd hdd hd
          | succ n =>
            rw [List.take_succ_cons]
            norm_num
        rw [htake]
        simp only [push_line]
        rw [if_neg hd, if_neg hd]
        have h2 : lastDimOf s + 1 - 2 = lastDimOf s - 1 := by omega
        rw [pushLineGo_take (lastDimOf s) rest 2 ix, h2]
  · intro t ht
    cases di with
    | nil =>
      simp only [push_line] at ht
      rw [Except.ok.injEq] at ht
      subst ht
      simp only [push_empty_line]
      constructor <;> simp
    | cons x rest =>
      obtain ⟨ix, vx⟩ := x
      simp only [push_line] at ht
      split at ht
      · rw [Except.ok.injEq] at ht
        subst ht
        simp only [push_empty_line]
        constructor <;> simp
      · rename_i hd
        split at ht
        · exact Except.noConfusion ht
        · rename_i p is2 vs2 hrec
          rw [Except.ok.injEq] at ht
          subst ht
          obtain ⟨hle, hveq⟩ := pushLineGo_length (lastDimOf s) rest 2 ix
            is2 vs2 (by omega) hrec
          constructor <;> simp <;> omega

/-- Witness for C9 at concrete inputs: with innermost axis size 2, a
three-pair input behaves exactly like its two-pair prefix. -/
theorem c9_push_line_spec_witness :
    push_line (⟨⟨[2], ([] : List Int), [], [0]⟩, 0, 0⟩ : LineCtor Int)
        [(0, 7), (1, 8), (5, 9)] =
      push_line (⟨⟨[2], ([] : List Int), [], [0]⟩, 0, 0⟩ : LineCtor Int)
        [(0, 7), (1, 8)] := by
  have h := (c9_push_line_spec
    (⟨⟨[2], ([] : List Int), [], [0]⟩, 0, 0⟩ : LineCtor Int)
    [(0, 7), (1, 8), (5, 9)]).1
  rw [h]
  rfl

/-! Offset-translation invariance. -/

theorem line_offs_shift (dims idcs offs : List Nat) (c : Nat) :
    line_offs dims idcs (offs.map (· + c)) = line_offs dims idcs offs := by
  unfold line_offs
  by_cases h0 : dims.length = 0
  · rw [if_pos h0, if_pos h0]
  · rw [if_neg h0, if_neg h0]
    by_cases h1 : dims.length = 1
    · rw [if_pos h1, if_pos h1]
      rw [List.get?_map, List.get?_map]
      cases offs.get? 1 with
      | none => rfl
      | some o1 =>
        cases offs.get? 0 with
        | none => rfl
        | some o0 =>
          simp only [Option.map_some']
          rw [Nat.add_sub_add_right]
    · rw [if_neg h1, if_neg h1]
      dsimp only
      cases hg : idcs.get? (dims.length - 2) with
      | none => rfl
      | some inner =>
        show (if satAdd (linesLoop dims idcs (idcs.length - 2) 0 0) inner >
              USIZE_MAX - 2 then none
          else
            match (offs.map (· + c)).get? 0,
              (offs.map (· + c)).get?
                (satAdd (linesLoop dims idcs (idcs.length - 2) 0 0) inner),
              (offs.map (· + c)).get?
                (satAdd (linesLoop dims idcs (idcs.length - 2) 0 0) inner
                  + 1) with
            | some first, some oS, some oE =>
              some ((satAdd (linesLoop dims idcs (idcs.length - 2) 0 0) inner,
                satAdd
                  (satAdd (linesLoop dims idcs (idcs.length - 2) 0 0) inner)
                  2),
                (oS - first, oE - first))
            | _, _, _ => none) =
          (if satAdd (linesLoop dims idcs (idcs.length - 2) 0 0) inner >
              USIZE_MAX - 2 then none
          else
            match offs.get? 0,
              offs.get?
                (satAdd (linesLoop dims idcs (idcs.length - 2) 0 0) inner),
              offs.get?
                (satAdd (linesLoop dims idcs (idcs.length - 2) 0 0) inner
                  + 1) with
            | some first, some oS, some oE =>
              some ((satAdd (linesLoop dims idcs (idcs.length - 2) 0 0) inner,
                satAdd
                  (satAdd (linesLoop dims idcs (idcs.length - 2) 0 0) inner)
                  2),
                (oS - first, oE - first))
            | _, _, _ => none)
        by_cases hbig :
            satAdd (linesLoop dims idcs (idcs.length - 2) 0 0) inner >
              USIZE_MAX - 2
        · rw [if_pos hbig, if_pos hbig]
        · rw [if_neg hbig, if_neg hbig]
          rw [List.get?_map, List.get?_map, List.get?_map]
          cases offs.get? 0 with
          | none => rfl
          | some first =>
            cases offs.get?
                (satAdd (linesLoop dims idcs (idcs.length - 2) 0 0) inner) with
            | none => rfl
            | some oS =>
              cases offs.get?
                  (satAdd (linesLoop dims idcs (idcs.length - 2) 0 0) inner
                    + 1) with
              | none => rfl
              | some oE =>
                simp only [Option.map_some']
                rw [Nat.add_sub_add_right, Nat.add_sub_add_right]

theorem sliceGet_map {l : List α} (f : α → β) (s e : Nat) :
    sliceGet (l.map f) s e = (sliceGet l s e).map (List.map f) := by
  unfold sliceGet
  rw [List.length_map]
  by_cases h : s ≤ e ∧ e ≤ l.length
  · rw [if_pos h, if_pos h]
    rw [Option.map_some', ← List.map_drop, ← List.map_take]
  · rw [if_neg h, if_neg h]
    rfl

theorem data_idx_shift (csl : Csl α) (idcs : List Nat) (c : Nat) :
    data_idx { csl with offs := csl.offs.map (· + c) } idcs =
      data_idx csl idcs := by
  unfold data_idx
  dsimp only
  rw [line_offs_shift]

theorem value_shift (csl : Csl α) (idcs : List Nat) (c : Nat) :
    value { csl with offs := csl.offs.map (· + c) } idcs = value csl idcs := by
  unfold value
  dsimp only
  rw [data_idx_shift]

theorem lineRef_shift (csl : Csl α) (idcs : List Nat) (c : Nat) :
    lineRef { csl with offs := csl.offs.map (· + c) } idcs =
      (lineRef csl idcs).map
        (fun v => { v with offs := v.offs.map (· + c) }) := by
  unfold lineRef
  dsimp only
  rw [line_offs_shift]
  cases csl.dims.getLast? with
  | none => rfl
  | some lastDim =>
    cases hlo : line_offs csl.dims idcs csl.offs with
    | none => rfl
    | some r =>
      obtain ⟨⟨oS, oE⟩, vS, vE⟩ := r
      show (match sliceGet csl.data vS vE, sliceGet csl.indcs vS vE,
          sliceGet (csl.offs.map (· + c)) oS oE with
        | some dataS, some indcsS, some offsS =>
          some (⟨[lastDim], dataS, indcsS, offsS⟩ : Csl α)
        | _, _, _ => none) =
        Option.map
          (fun v => { v with offs := v.offs.map (· + c) })
          (match sliceGet csl.data vS vE, sliceGet csl.indcs vS vE,
            sliceGet csl.offs oS oE with
          | some dataS, some indcsS, some offsS =>
            some (⟨[lastDim], dataS, indcsS, offsS⟩ : Csl α)
          | _, _, _ => none)
      rw [sliceGet_map]
      cases sliceGet csl.data vS vE with
      | none => rfl
      | some dataS =>
        cases sliceGet csl.indcs vS vE with
        | none => rfl
        | some indcsS =>
          cases sliceGet csl.offs oS oE with
          | none => rfl
          | some offsS => rfl

theorem relOff_map (offs : List Nat) (c k : Nat) :
    relOff (offs.map (· + c)) k = relOff offs k := by
  unfold relOff
  cases offs with
  | nil => rfl
  | cons o0 rest =>
    rw [getD_eq_get?_getD, getD_eq_get?_getD, getD_eq_get?_getD,
      getD_eq_get?_getD, List.get?_map, List.get?_map]
    cases hk : (o0 :: rest).get? k with
    | none =>
      simp only [List.get?_cons_zero, Option.map_none', Option.map_some',
        Option.getD_some, Option.getD_none]
      omega
    | some vk =>
      simp only [List.get?_cons_zero, Option.map_some', Option.getD_some]
      rw [Nat.add_sub_add_right]

theorem lineSliceAt_shift (idcs offs : List Nat) (c k : Nat) :
    lineSliceAt idcs (offs.map (· + c)) k = lineSliceAt idcs offs k := by
  unfold lineSliceAt
  rw [relOff_map, relOff_map]

theorem weakValid_shift {csl : Csl α} (c : Nat) (h : WeakValid csl) :
    WeakValid { csl with offs := csl.offs.map (· + c) } := by
  obtain ⟨h1, h2, h3, h4, h5, h6, h7⟩ := h
  refine ⟨h1, h2, ?_, h4, ?_, ?_, ?_⟩
  · dsimp only
    rw [List.pairwise_map]
    exact h3.imp (fun hab => Nat.add_le_add_right hab c)
  · intro k hk
    dsimp only at hk ⊢
    rw [List.length_map] at hk
    rw [lineSliceAt_shift]
    exact h5 k hk
  · intro hne
    dsimp only at hne ⊢
    have hne2 : csl.offs ≠ [] := by
      intro hx
      rw [hx] at hne
      exact hne rfl
    have h6x := h6 hne2
    obtain ⟨ol, hol⟩ : ∃ ol, csl.offs.getLast? = some ol := by
      cases hg : csl.offs.getLast? with
      | none => exact absurd (List.getLast?_eq_none_iff.mp hg) hne2
      | some x => exact ⟨x, rfl⟩
    obtain ⟨o0, ho0⟩ : ∃ o0, csl.offs.head? = some o0 := by
      cases hg : csl.offs.head? with
      | none => exact absurd (List.head?_eq_none_iff.mp hg) hne2
      | some x => exact ⟨x, rfl⟩
    rw [List.getLast?_map, List.head?_map, hol, ho0]
    rw [hol, ho0] at h6x
    simp only [Option.map_some', Option.getD_some] at h6x ⊢
    rw [Nat.add_sub_add_right]
    exact h6x
  · intro hne
    dsimp only at hne ⊢
    have h7x := h7 hne
    rw [List.length_map]
    exact h7x

/-- Claim C10, counterexample: shifting every offset by 5 yields a store
that construction also accepts and whose `value` lookups agree, but
`line(idx)` returns a different view: its two-element offsets sub-slice is
shifted. -/
theorem c10_counterexample :
    csl_new [10] ([8] : List Int) [0] [0, 1] =
      .ok ⟨[10], [8], [0], [0, 1]⟩ ∧
    csl_new [10] ([8] : List Int) [0] [5, 6] =
      .ok ⟨[10], [8], [0], [5, 6]⟩ ∧
    ([5, 6] : List Nat) = [0, 1].map (· + 5) ∧
    lineRef (⟨[10], ([8] : List Int), [0], [0, 1]⟩ : Csl Int) [0] =
      some ⟨[10], [8], [0], [0, 1]⟩ ∧
    lineRef (⟨[10], ([8] : List Int), [0], [5, 6]⟩ : Csl Int) [0] =
      some ⟨[10], [8], [0], [5, 6]⟩ ∧
    lineRef (⟨[10], ([8] : List Int), [0], [5, 6]⟩ : Csl Int) [0] ≠
      lineRef (⟨[10], ([8] : List Int), [0], [0, 1]⟩ : Csl Int) [0] := by
  exact ⟨by decide, by decide, by decide, by decide, by decide, by decide⟩

/-- Claim C10 (amended): adding a constant to every offset of an accepted
store yields a store that construction also accepts (verbatim), `value`
returns identical results on both stores for every multi-index, and `line`
returns the same view except that its offsets sub-slice is shifted by the
constant. -/
theorem c10_offset_shift {α : Type} (dims : List Nat) (data : List α)
    (idcs offs : List Nat) (c : Nat)
    (h : csl_new dims data idcs offs = .ok ⟨dims, data, idcs, offs⟩) :
    csl_new dims data idcs (offs.map (· + c)) =
      .ok ⟨dims, data, idcs, offs.map (· + c)⟩ ∧
    (∀ ix, value (⟨dims, data, idcs, offs.map (· + c)⟩ : Csl α) ix =
      value ⟨dims, data, idcs, offs⟩ ix) ∧
    (∀ ix, lineRef (⟨dims, data, idcs, offs.map (· + c)⟩ : Csl α) ix =
      (lineRef ⟨dims, data, idcs, offs⟩ ix).map
        (fun v => { v with offs := v.offs.map (· + c) })) := by
  have hw : WeakValid (⟨dims, data, idcs, offs⟩ : Csl α) :=
    (csl_new_ok_iff.mp h).1
  refine ⟨?_, ?_, ?_⟩
  · exact csl_new_ok_iff.mpr ⟨weakValid_shift c hw, rfl⟩
  · intro ix
    exact value_shift ⟨dims, data, idcs, offs⟩ ix c
  · intro ix
    exact lineRef_shift ⟨dims, data, idcs, offs⟩ ix c

/-- Witness for C10 at a concrete store and shift constant. -/
theorem c10_offset_shift_witness :
    csl_new [10] ([8] : List Int) [0] ([0, 1].map (· + 5)) =
      .ok ⟨[10], [8], [0], [0, 1].map (· + 5)⟩ ∧
    value (⟨[10], ([8] : List Int), [0], [0, 1].map (· + 5)⟩ : Csl Int) [0] =
      value ⟨[10], [8], [0], [0, 1]⟩ [0] := by
  have h := c10_offset_shift [10] ([8] : List Int) [0] [0, 1] 5 (by decide)
  exact ⟨h.1, h.2.1 [0]⟩

/-! The line-number formula: `correct_offs_len` arithmetic, exactness of the
saturating fold and of `linesLoop`, and the `line_offs` formula (C3/C2). -/

theorem dropLast_drop_comm (l : List α) (k : Nat) :
    (l.drop k).dropLast = l.dropLast.drop k := by
  induction l generalizing k with
  | nil => simp
  | cons a t ih =>
    cases k with
    | zero => simp
    | succ k =>
      cases t with
      | nil => simp
      | cons b t2 => simp only [List.drop_succ_cons, List.dropLast_cons₂, ih]

theorem foldl_satMul_min (l : List Nat) :
    ∀ a, a ≤ USIZE_MAX → l.foldl satMul a = min (a * l.prod) USIZE_MAX := by
  induction l with
  | nil =>
    intro a ha
    rw [List.foldl_nil, List.prod_nil, mul_one]
    exact (min_eq_left ha).symm
  | cons d t ih =>
    intro a ha
    rw [List.foldl_cons, List.prod_cons]
    by_cases h : a * d ≤ USIZE_MAX
    · rw [show satMul a d = a * d from satMul_eq h, ih (a * d) h, mul_assoc]
    · have hsat : satMul a d = USIZE_MAX := min_eq_right (by omega)
      rw [hsat, ih USIZE_MAX (le_refl _)]
      rcases Nat.eq_zero_or_pos t.prod with hz | hpz
      · rw [hz]; simp
      · have h1 : USIZE_MAX ≤ USIZE_MAX * t.prod :=
          Nat.le_mul_of_pos_right _ hpz
        have h2 : USIZE_MAX ≤ a * (d * t.prod) := by
          have h3 : a * d ≤ a * d * t.prod := Nat.le_mul_of_pos_right _ hpz
          rw [mul_assoc] at h3
          omega
        rw [min_eq_right h1, min_eq_right h2]

theorem reverse_drop_one (l : List α) : l.reverse.drop 1 = l.dropLast.reverse := by
  rw [List.drop_one, List.tail_reverse]

theorem correct_offs_len_ge2 (a b : Nat) (t : List Nat) :
    correct_offs_len (a :: b :: t) =
      if (a :: b :: t).all (fun d => d = 0) then .ok 1
      else
        if ((((a :: b :: t).reverse.drop 1).filter (fun d => d ≠ 0)).foldl
            satMul 1) = USIZE_MAX then .error CslError.OffsLengthOverflow
        else .ok (((((a :: b :: t).reverse.drop 1).filter (fun d => d ≠ 0)).foldl
          satMul 1) + 1) := rfl

theorem correct_offs_len_one (d : Nat) : correct_offs_len [d] = .ok 2 := rfl

theorem correct_offs_len_pos {dims : List Nat} (hD : 2 ≤ dims.length)
    (hpos : ∀ x ∈ dims, 0 < x) {n : Nat}
    (h : correct_offs_len dims = .ok n) :
    dims.dropLast.prod ≤ USIZE_MAX - 1 ∧ n = dims.dropLast.prod + 1 := by
  match dims, hD with
  | a :: b :: t, _ =>
    rw [correct_offs_len_ge2] at h
    have hall : ¬ ((a :: b :: t).all (fun d => d = 0) = true) := by
      simp only [List.all_eq_true]
      intro hc
      have h1 := hc a (by simp)
      have ha := hpos a (by simp)
      simp at h1
      omega
    rw [if_neg hall] at h
    have hrev : (a :: b :: t).reverse.drop 1 = (a :: b :: t).dropLast.reverse :=
      reverse_drop_one _
    have hfilter : ((a :: b :: t).dropLast.reverse).filter (fun d => d ≠ 0)
        = (a :: b :: t).dropLast.reverse := by
      rw [List.filter_eq_self]
      intro x hx
      have hx2 : x ∈ (a :: b :: t) :=
        List.dropLast_subset _ (List.mem_reverse.mp hx)
      have := hpos x hx2
      exact decide_eq_true (by omega)
    rw [hrev, hfilter] at h
    have hfold : ((a :: b :: t).dropLast.reverse).foldl satMul 1 =
        min ((a :: b :: t).dropLast.prod) USIZE_MAX := by
      rw [foldl_satMul_min _ 1 (by norm_num [USIZE_MAX]), one_mul,
        List.prod_reverse]
    rw [hfold] at h
    by_cases hle : (a :: b :: t).dropLast.prod < USIZE_MAX
    · rw [min_eq_left (le_of_lt hle)] at h
      rw [if_neg (by omega)] at h
      rw [Except.ok.injEq] at h
      exact ⟨by omega, by omega⟩
    · rw [min_eq_right (by omega)] at h
      rw [if_pos rfl] at h
      exact Except.noConfusion h

theorem mem_dropLast_pos {dims : List Nat} (hpos : ∀ x ∈ dims, 0 < x) :
    ∀ x ∈ dims.dropLast, 0 < x :=
  fun x hx => hpos x (List.dropLast_subset _ hx)

theorem prod_drop_dvd (l : List Nat) (k : Nat) : (l.drop k).prod ∣ l.prod := by
  conv_rhs => rw [← List.take_append_drop k l]
  rw [List.prod_append]
  exact dvd_mul_left _ _

theorem prod_drop_le {l : List Nat} (hpos : ∀ x ∈ l, 0 < x) (k : Nat) :
    (l.drop k).prod ≤ l.prod :=
  Nat.le_of_dvd (List.prod_pos hpos) (prod_drop_dvd l k)

theorem strideAt_exact {dims : List Nat}
    (hpos : ∀ x ∈ dims.dropLast, 0 < x)
    (hP : dims.dropLast.prod ≤ USIZE_MAX) (pos : Nat) :
    strideAt dims pos = (dims.dropLast.drop (pos + 1)).prod := by
  unfold strideAt
  rw [dropLast_drop_comm]
  refine usizeProd_eq _ ?_
  have h1 : (dims.dropLast.drop (pos + 1)).prod ≤ dims.dropLast.prod :=
    prod_drop_le hpos (pos + 1)
  have h2 : USIZE_MAX < 2 ^ 64 := by norm_num [USIZE_MAX]
  omega

theorem lineSpec_nil (is : List Nat) : lineSpec [] is = 0 := by
  cases is <;> rfl

theorem lineSpec_cons (d : Nat) (ds : List Nat) (i : Nat) (is : List Nat) :
    lineSpec (d :: ds) (i :: is) = i * ds.prod + lineSpec ds is := rfl

theorem lineSpec_lt {ds : List Nat} :
    ∀ {is : List Nat}, ds.length ≤ is.length →
      (∀ k, k < ds.length → is.getD k 0 < ds.getD k 0) →
      lineSpec ds is < ds.prod := by
  induction ds with
  | nil =>
    intro is _ _
    rw [lineSpec_nil, List.prod_nil]
    omega
  | cons d ds ih =>
    intro is hlen hb
    cases is with
    | nil => simp only [List.length_cons, List.length_nil] at hlen; omega
    | cons i is =>
      rw [lineSpec_cons, List.prod_cons]
      have h0 : i < d := by
        have := hb 0 (by simp only [List.length_cons]; omega)
        simpa using this
      have hrec : lineSpec ds is < ds.prod := by
        refine ih ?_ ?_
        · simp only [List.length_cons] at hlen; omega
        · intro k hk
          have := hb (k + 1) (by simp only [List.length_cons]; omega)
          simpa using this
      calc i * ds.prod + lineSpec ds is < i * ds.prod + ds.prod := by omega
        _ = (i + 1) * ds.prod := by ring
        _ ≤ d * ds.prod := Nat.mul_le_mul_right _ (by omega)

theorem inBounds_dims_pos {idx dims : List Nat} (hin : InBounds idx dims) :
    ∀ x ∈ dims, 0 < x := by
  intro x hx
  obtain ⟨k, hk, rfl⟩ := List.mem_iff_getElem.mp hx
  have h1 := hin k (List.mem_range.mpr hk)
  rw [getD_eq_getElem hk] at h1
  omega

theorem linesLoop_spec {dims idx : List Nat}
    (hpos : ∀ x ∈ dims.dropLast, 0 < x)
    (hP : dims.dropLast.prod ≤ USIZE_MAX)
    (hlen : idx.length = dims.length) (hD : 2 ≤ dims.length)
    (n : Nat) :
    ∀ pos acc, pos + n = dims.length - 2 →
      acc + lineSpec (dims.dropLast.drop pos) (idx.drop pos) ≤ USIZE_MAX →
      satAdd (linesLoop dims (idx.drop pos) n pos acc)
          (idx.getD (dims.length - 2) 0) =
        acc + lineSpec (dims.dropLast.drop pos) (idx.drop pos) := by
  induction n with
  | zero =>
    intro pos acc hpn hb
    have hlenDL : dims.dropLast.length = dims.length - 1 :=
      List.length_dropLast _
    have hpos1 : pos < idx.length := by omega
    have hpos2 : pos < dims.dropLast.length := by omega
    have hidx : idx.drop pos = idx.getD pos 0 :: idx.drop (pos + 1) := by
      rw [List.drop_eq_getElem_cons hpos1, getD_eq_getElem hpos1]
    have hdim : dims.dropLast.drop pos =
        dims.dropLast.getD pos 0 :: dims.dropLast.drop (pos + 1) := by
      rw [List.drop_eq_getElem_cons hpos2, getD_eq_getElem hpos2]
    have hnil : dims.dropLast.drop (pos + 1) = [] :=
      List.drop_eq_nil_of_le (by omega)
    have hspec : lineSpec (dims.dropLast.drop pos) (idx.drop pos)
        = idx.getD pos 0 := by
      rw [hdim, hidx, hnil, lineSpec_cons, lineSpec_nil, List.prod_nil,
        mul_one, Nat.add_zero]
    rw [hspec] at hb
    have hloop : linesLoop dims (idx.drop pos) 0 pos acc = acc := by
      rw [hidx]
      rfl
    rw [hloop, hspec]
    have hpe : pos = dims.length - 2 := by omega
    rw [← hpe]
    exact satAdd_eq hb
  | succ n ih =>
    intro pos acc hpn hb
    have hlenDL : dims.dropLast.length = dims.length - 1 :=
      List.length_dropLast _
    have hpos1 : pos < idx.length := by omega
    have hpos2 : pos < dims.dropLast.length := by omega
    have hidx : idx.drop pos = idx.getD pos 0 :: idx.drop (pos + 1) := by
      rw [List.drop_eq_getElem_cons hpos1, getD_eq_getElem hpos1]
    have hdim : dims.dropLast.drop pos =
        dims.dropLast.getD pos 0 :: dims.dropLast.drop (pos + 1) := by
      rw [List.drop_eq_getElem_cons hpos2, getD_eq_getElem hpos2]
    have hst : strideAt dims pos = (dims.dropLast.drop (pos + 1)).prod :=
      strideAt_exact hpos hP pos
    set i := idx.getD pos 0 with hi
    set Q := (dims.dropLast.drop (pos + 1)).prod with hQ
    set S := lineSpec (dims.dropLast.drop (pos + 1)) (idx.drop (pos + 1))
      with hS
    have hbspec : lineSpec (dims.dropLast.drop pos) (idx.drop pos)
        = i * Q + S := by
      rw [hdim, hidx, lineSpec_cons]
    rw [hbspec] at hb ⊢
    have hstep : linesLoop dims (idx.drop pos) (n + 1) pos acc =
        linesLoop dims (idx.drop (pos + 1)) n (pos + 1)
          (satAdd acc (satMul (strideAt dims pos) i)) := by
      rw [hidx]
      rfl
    have hQi : Q * i ≤ USIZE_MAX := by
      have hcomm : Q * i = i * Q := Nat.mul_comm _ _
      omega
    have hmul : satMul (strideAt dims pos) i = i * Q := by
      rw [hst, satMul_eq hQi, Nat.mul_comm]
    have hadd : satAdd acc (i * Q) = acc + i * Q := satAdd_eq (by omega)
    rw [hstep, hmul, hadd]
    have hrec := ih (pos + 1) (acc + i * Q) (by omega) (by omega)
    rw [hrec]
    omega

theorem line_offs_formula {dims idx offs : List Nat}
    (hD : 2 ≤ dims.length) (hlen : idx.length = dims.length)
    (hpos : ∀ x ∈ dims, 0 < x)
    (hP : dims.dropLast.prod ≤ USIZE_MAX - 1)
    (hoffs : offs.length = dims.dropLast.prod + 1)
    (hin : InBounds idx dims) :
    line_offs dims idx offs =
      some ((lineSpec dims.dropLast idx, lineSpec dims.dropLast idx + 2),
        (offs.getD (lineSpec dims.dropLast idx) 0 - offs.getD 0 0,
         offs.getD (lineSpec dims.dropLast idx + 1) 0 - offs.getD 0 0)) := by
  have hMAX : 2 ≤ USIZE_MAX := by norm_num [USIZE_MAX]
  have hlenDL : dims.dropLast.length = dims.length - 1 :=
    List.length_dropLast _
  set P := dims.dropLast.prod with hPdef
  set L := lineSpec dims.dropLast idx with hLdef
  have hposDL : ∀ x ∈ dims.dropLast, 0 < x := mem_dropLast_pos hpos
  have hL : L < P := by
    rw [hLdef, hPdef]
    refine lineSpec_lt (by omega) ?_
    intro k hk
    have hk2 : k < dims.length := by omega
    have hbk : idx.getD k 0 < dims.getD k 0 :=
      hin k (List.mem_range.mpr hk2)
    have hdk : dims.dropLast.getD k 0 = dims.getD k 0 := by
      rw [getD_eq_getElem (by omega), getD_eq_getElem hk2]
      exact List.getElem_dropLast _ _ _
    omega
  have h0 : ¬ (dims.length = 0) := by omega
  have h1 : ¬ (dims.length = 1) := by omega
  unfold line_offs
  rw [if_neg h0, if_neg h1]
  dsimp only
  rw [hlen]
  have hget : idx.get? (dims.length - 2) =
      some (idx.getD (dims.length - 2) 0) := get?_eq_getD (by omega)
  cases hg : idx.get? (dims.length - 2) with
  | none => rw [hget] at hg; exact Option.noConfusion hg
  | some inner =>
    have hinner : inner = idx.getD (dims.length - 2) 0 := by
      rw [hget] at hg
      exact (Option.some.injEq _ _).mp hg.symm
    subst hinner
    have hloop := linesLoop_spec hposDL (by omega) hlen hD (dims.length - 2)
      0 0 (by omega) (by rw [List.drop_zero, List.drop_zero]; omega)
    rw [List.drop_zero, List.drop_zero, Nat.zero_add, ← hLdef] at hloop
    show (if satAdd (linesLoop dims idx (dims.length - 2) 0 0)
          (idx.getD (dims.length - 2) 0) > USIZE_MAX - 2 then none
      else
        match offs.get? 0,
          offs.get? (satAdd (linesLoop dims idx (dims.length - 2) 0 0)
            (idx.getD (dims.length - 2) 0)),
          offs.get? (satAdd (linesLoop dims idx (dims.length - 2) 0 0)
            (idx.getD (dims.length - 2) 0) + 1) with
        | some first, some oS, some oE =>
          some ((satAdd (linesLoop dims idx (dims.length - 2) 0 0)
              (idx.getD (dims.length - 2) 0),
            satAdd (satAdd (linesLoop dims idx (dims.length - 2) 0 0)
              (idx.getD (dims.length - 2) 0)) 2),
            (oS - first, oE - first))
        | _, _, _ => none) =
      some ((L, L + 2),
        (offs.getD L 0 - offs.getD 0 0, offs.getD (L + 1) 0 - offs.getD 0 0))
    rw [hloop]
    rw [if_neg (show ¬ L > USIZE_MAX - 2 by omega)]
    have hg0 : offs.get? 0 = some (offs.getD 0 0) := get?_eq_getD (by omega)
    have hgL : offs.get? L = some (offs.getD L 0) := get?_eq_getD (by omega)
    have hgL1 : offs.get? (L + 1) = some (offs.getD (L + 1) 0) :=
      get?_eq_getD (by omega)
    rw [hg0, hgL, hgL1]
    show some ((L, satAdd L 2),
        (offs.getD L 0 - offs.getD 0 0, offs.getD (L + 1) 0 - offs.getD 0 0)) =
      some ((L, L + 2),
        (offs.getD L 0 - offs.getD 0 0, offs.getD (L + 1) 0 - offs.getD 0 0))
    rw [satAdd_eq (show L + 2 ≤ USIZE_MAX by omega)]

theorem line_offs_one (d : Nat) (idx offs : List Nat)
    (hoffs : 2 ≤ offs.length) :
    line_offs [d] idx offs =
      some ((0, 2), (0, offs.getD 1 0 - offs.getD 0 0)) := by
  unfold line_offs
  rw [if_neg (by simp), if_pos (by simp)]
  rw [get?_eq_getD (show 1 < offs.length by omega),
    get?_eq_getD (show 0 < offs.length by omega)]

theorem lineSpec_lt_prod {dims idx : List Nat} (hD : 2 ≤ dims.length)
    (hlen : idx.length = dims.length) (hin : InBounds idx dims) :
    lineSpec dims.dropLast idx < dims.dropLast.prod := by
  have hlenDL : dims.dropLast.length = dims.length - 1 :=
    List.length_dropLast _
  refine lineSpec_lt (by omega) ?_
  intro k hk
  have hk2 : k < dims.length := by omega
  have hbk := hin k (List.mem_range.mpr hk2)
  have hdk : dims.dropLast.getD k 0 = dims.getD k 0 := by
    rw [getD_eq_getElem (by omega), getD_eq_getElem hk2]
    exact List.getElem_dropLast _ _ _
  omega

/-- Unfolding of `data_idx` once the innermost coordinate, the line ranges
and the index sub-slice are known. -/
theorem data_idx_eq {α : Type} {csl : Csl α} {idx : List Nat} {t : Nat}
    {r : Nat × Nat} {vS vE : Nat} {I : List Nat}
    (hlast : idx.getLast? = some t)
    (hlo : line_offs csl.dims idx csl.offs = some (r, (vS, vE)))
    (hslice : sliceGet csl.indcs vS vE = some I) :
    data_idx csl idx =
      (match binarySearch I t with
       | .ok x => some (vS + x)
       | .error _ => none) := by
  unfold data_idx
  rw [hlast, hlo]
  show (match sliceGet csl.indcs vS vE with
    | none => none
    | some slice =>
      match binarySearch slice t with
      | .ok x => some (vS + x)
      | .error _ => none) =
    (match binarySearch I t with
     | .ok x => some (vS + x)
     | .error _ => none)
  rw [hslice]

/-- **C3 counterexample**: a valid two-axis store whose offsets do not start
at 0 (construction accepts any common shift of the offsets).  `line_offs`
reports line number 1 with values range `2..3`, i.e.
`offsets[1] - offsets[0] .. offsets[2] - offsets[0]`, and `value` reads
`data[2]`; the absolute range `offsets[1]..offsets[2] = 7..8` lies outside
the three-element data container, so the line's data is not delimited by
`offsets[line]..offsets[line+1]` read as absolute positions. -/
theorem c3_counterexample :
    StoreValid (⟨[2, 3], [10, 20, 30], [0, 1, 2], [5, 7, 8]⟩ : Csl Int) ∧
    line_offs [2, 3] [1, 2] [5, 7, 8] = some ((1, 3), (2, 3)) ∧
    value (⟨[2, 3], [10, 20, 30], [0, 1, 2], [5, 7, 8]⟩ : Csl Int) [1, 2] =
      some 30 ∧
    sliceGet ([10, 20, 30] : List Int) 7 8 = none :=
  ⟨by decide, by decide, by decide, by decide⟩

/-- **C3** (amended): for every valid store with `D ≥ 2` axes and every
in-bounds full multi-index, `line_offs` computes exactly the row-major
mixed-radix line number `L = lineSpec dims.dropLast idx`
(`Σ_{i=0}^{D-2} idx[i] * stride(i)`, the second-to-last coordinate entering
with stride 1), and delimits the line's values by the offset pair
`offsets[L], offsets[L+1]` taken relative to the first offset; for a
single-axis valid store the offsets container always has exactly two
elements and the whole store is the one line delimited by that pair. -/
theorem c3_line_formula {α : Type} (csl : Csl α) (idx : List Nat)
    (hv : StoreValid csl) (hlen : idx.length = csl.dims.length)
    (hin : InBounds idx csl.dims) :
    (2 ≤ csl.dims.length →
      line_offs csl.dims idx csl.offs =
        some ((lineSpec csl.dims.dropLast idx,
            lineSpec csl.dims.dropLast idx + 2),
          (csl.offs.getD (lineSpec csl.dims.dropLast idx) 0 -
             csl.offs.getD 0 0,
           csl.offs.getD (lineSpec csl.dims.dropLast idx + 1) 0 -
             csl.offs.getD 0 0))) ∧
    (csl.dims.length = 1 →
      csl.offs.length = 2 ∧
      line_offs csl.dims idx csl.offs =
        some ((0, 2), (0, csl.offs.getD 1 0 - csl.offs.getD 0 0))) := by
  obtain ⟨-, -, -, -, -, -, hdims⟩ := hv
  constructor
  · intro hD
    have hne : csl.dims ≠ [] := by
      intro hnil
      rw [hnil] at hD
      simp at hD
    obtain ⟨-, hcol⟩ := hdims hne
    have hpos : ∀ x ∈ csl.dims, 0 < x := inBounds_dims_pos hin
    obtain ⟨hP, hlen2⟩ := correct_offs_len_pos hD hpos hcol
    exact line_offs_formula hD hlen hpos hP (by omega) hin
  · intro hD
    have hne : csl.dims ≠ [] := by
      intro hnil
      rw [hnil] at hD
      simp at hD
    obtain ⟨-, hcol⟩ := hdims hne
    obtain ⟨d, hd⟩ := List.length_eq_one.mp hD
    rw [hd, correct_offs_len_one] at hcol
    have hoffs2 : csl.offs.length = 2 := by
      rw [Except.ok.injEq] at hcol
      omega
    refine ⟨hoffs2, ?_⟩
    rw [hd]
    exact line_offs_one d idx csl.offs (by omega)

/-- Witness for the amended C3 at a concrete valid store: shape `[2,3]`,
index `[1,0]` lives on line `1`, delimited by the relative offset pair
`(2, 3)`. -/
theorem c3_line_formula_witness :
    StoreValid (⟨[2, 3], [10, 20, 30], [0, 1, 2], [0, 2, 3]⟩ : Csl Int) ∧
    line_offs [2, 3] [1, 0] [0, 2, 3] = some ((1, 3), (2, 3)) := by
  refine ⟨by decide, ?_⟩
  have h := (c3_line_formula
    (⟨[2, 3], [10, 20, 30], [0, 1, 2], [0, 2, 3]⟩ : Csl Int)
    [1, 0] (by decide) (by decide) (by decide)).1 (by decide)
  exact h.trans (by decide)

/-- **C2**: for every valid store with at least one axis and every in-bounds
full multi-index `idx` with innermost coordinate `t` living on line `L`:
`value idx` is present exactly when the line's index sub-slice contains `t`,
and if `t` sits at position `k` of that sub-slice then `value idx` is the
entry at position `k` of the line's values sub-slice. -/
theorem c2_value_spec {α : Type} (csl : Csl α) (idx : List Nat)
    (hv : StoreValid csl) (hD : 1 ≤ csl.dims.length)
    (hlen : idx.length = csl.dims.length) (hin : InBounds idx csl.dims)
    (L t : Nat)
    (hL : L = if csl.dims.length = 1 then 0
      else lineSpec csl.dims.dropLast idx)
    (ht : idx.getLast? = some t) :
    (value csl idx ≠ none ↔ t ∈ lineSliceAt csl.indcs csl.offs L) ∧
    (∀ k, (lineSliceAt csl.indcs csl.offs L).get? k = some t →
      value csl idx =
        ((csl.data.drop (relOff csl.offs L)).take
          (relOff csl.offs (L + 1) - relOff csl.offs L)).get? k) := by
  obtain ⟨hzb, hdl, hmono, hcap, hlines, hnnzEq, hdims⟩ := hv
  have hne : csl.dims ≠ [] := by
    intro hnil
    rw [hnil] at hD
    simp at hD
  obtain ⟨hub, hcol⟩ := hdims hne
  have hkey : (L + 1 < csl.offs.length) ∧
      ∃ E, line_offs csl.dims idx csl.offs =
        some ((L, E), (relOff csl.offs L, relOff csl.offs (L + 1))) := by
    by_cases hD1 : csl.dims.length = 1
    · rw [if_pos hD1] at hL
      obtain ⟨d, hd⟩ := List.length_eq_one.mp hD1
      have hcol2 := hcol
      rw [hd, correct_offs_len_one] at hcol2
      have h2 : csl.offs.length = 2 := by
        rw [Except.ok.injEq] at hcol2
        omega
      refine ⟨by omega, 2, ?_⟩
      have hone := line_offs_one d idx csl.offs (by omega)
      rw [hd, hone, hL]
      unfold relOff
      rw [Nat.sub_self]
    · have hD2 : 2 ≤ csl.dims.length := by omega
      rw [if_neg hD1] at hL
      have hpos : ∀ x ∈ csl.dims, 0 < x := inBounds_dims_pos hin
      obtain ⟨hP, hlen2⟩ := correct_offs_len_pos hD2 hpos hcol
      have hoffs2 : csl.offs.length = csl.dims.dropLast.prod + 1 := by omega
      have hform := line_offs_formula hD2 hlen hpos hP hoffs2 hin
      have hLlt := lineSpec_lt_prod hD2 hlen hin
      refine ⟨by omega, L + 2, ?_⟩
      rw [hform, hL]
      unfold relOff
      rfl
  obtain ⟨hLlen, E, hlo⟩ := hkey
  have hoffs_ne : csl.offs ≠ [] := by
    intro h0
    rw [h0] at hLlen
    simp only [List.length_nil] at hLlen
    omega
  have hmonoLE : csl.offs.getD L 0 ≤ csl.offs.getD (L + 1) 0 :=
    chain'_le_getD hmono (by omega) hLlen
  have hse : relOff csl.offs L ≤ relOff csl.offs (L + 1) := by
    unfold relOff
    omega
  have hlast_off : csl.offs.getD (L + 1) 0 ≤ (csl.offs.getLast?).getD 0 :=
    chain'_le_getLast hmono hLlen
  have hnnz := hnnzEq hoffs_ne
  have hhead : (csl.offs.head?).getD 0 = csl.offs.getD 0 0 := head_getD_eq
  have hmono0 : csl.offs.getD 0 0 ≤ csl.offs.getD (L + 1) 0 :=
    chain'_le_getD hmono (by omega) hLlen
  have hEle : relOff csl.offs (L + 1) ≤ csl.indcs.length := by
    unfold relOff
    rw [← hdl]
    omega
  have hslice : sliceGet csl.indcs (relOff csl.offs L)
      (relOff csl.offs (L + 1)) =
      some (lineSliceAt csl.indcs csl.offs L) := by
    rw [sliceGet_eq_some hse hEle]
    rfl
  have hsorted : List.Pairwise (· < ·) (lineSliceAt csl.indcs csl.offs L) :=
    hlines L (List.mem_range.mpr (by omega))
  have hslen : (lineSliceAt csl.indcs csl.offs L).length =
      relOff csl.offs (L + 1) - relOff csl.offs L := sliceGet_length hslice
  have hdx := data_idx_eq ht hlo hslice
  constructor
  · constructor
    · intro hval
      cases hbin : binarySearch (lineSliceAt csl.indcs csl.offs L) t with
      | error e =>
        exfalso
        apply hval
        show value csl idx = none
        unfold value
        rw [hdx, hbin]
        rfl
      | ok x =>
        exact List.get?_mem (binarySearch_ok hbin)
    · intro hmem
      obtain ⟨x, hbin⟩ := binarySearch_finds hsorted hmem
      have hgx := binarySearch_ok hbin
      have hxlen : x < (lineSliceAt csl.indcs csl.offs L).length := by
        obtain ⟨h, -⟩ := List.get?_eq_some.mp hgx
        exact h
      unfold value
      rw [hdx, hbin]
      show csl.data.get? (relOff csl.offs L + x) ≠ none
      have hix : relOff csl.offs L + x < csl.data.length := by
        rw [hslen] at hxlen
        rw [hdl]
        have h2 := hEle
        omega
      rw [List.get?_eq_get hix]
      exact Option.some_ne_none _
  · intro k hk
    have hkx : k < (lineSliceAt csl.indcs csl.offs L).length := by
      obtain ⟨h, -⟩ := List.get?_eq_some.mp hk
      exact h
    have hmem : t ∈ lineSliceAt csl.indcs csl.offs L := List.get?_mem hk
    obtain ⟨x, hbin⟩ := binarySearch_finds hsorted hmem
    have hgx := binarySearch_ok hbin
    have hxk : x = k := pairwise_lt_get?_inj hsorted hgx hk
    subst hxk
    unfold value
    rw [hdx, hbin]
    show csl.data.get? (relOff csl.offs L + x) =
      ((csl.data.drop (relOff csl.offs L)).take
        (relOff csl.offs (L + 1) - relOff csl.offs L)).get? x
    rw [hslen] at hkx
    rw [List.get?_take hkx, List.get?_drop]

/-- Witness for C2 at a concrete valid store: shape `[2,3]`, index `[0,1]`
has innermost coordinate `1` at position `1` of line 0's index sub-slice, and
`value` returns the matching entry `20`. -/
theorem c2_value_spec_witness :
    StoreValid (⟨[2, 3], [10, 20, 30], [0, 1, 2], [0, 2, 3]⟩ : Csl Int) ∧
    value (⟨[2, 3], [10, 20, 30], [0, 1, 2], [0, 2, 3]⟩ : Csl Int) [0, 1] =
      some 20 := by
  refine ⟨by decide, ?_⟩
  have h := (c2_value_spec
    (⟨[2, 3], [10, 20, 30], [0, 1, 2], [0, 2, 3]⟩ : Csl Int)
    [0, 1] (by decide) (by decide) (by decide) (by decide) 0 1
    (by decide) rfl).2 1 (by decide)
  rw [h]
  decide

/-! The outermost iterator: closed form of the yielded sequence, `split_at`
concatenation and disjointness of the halves' sub-slices (C5). -/

theorem range'_append_one (s m n : Nat) :
    List.range' s m ++ List.range' (s + m) n = List.range' s (m + n) := by
  have h := List.range'_append s m n 1
  rw [one_mul, Nat.add_comm n m] at h
  exact h

theorem iterViews_eq {α : Type} :
    ∀ (n : Nat) (it : CslIter α), n ≤ it.max_idx - it.curr_idx →
      iterViews it n = (List.range' it.curr_idx n).map
        (viewAt it.dims it.data it.indcs it.offs) := by
  intro n
  induction n with
  | zero => intro it h; rfl
  | succ n ih =>
    intro it h
    obtain ⟨c, data, dims, indcs, m, offs⟩ := it
    dsimp only at h
    have hlt : ¬ (c ≥ m) := by omega
    show (match iterNext (⟨c, data, dims, indcs, m, offs⟩ : CslIter α) with
      | none => []
      | some (view, it1) => view :: iterViews it1 n) =
      (List.range' c (n + 1)).map (viewAt dims data indcs offs)
    have hnext : iterNext (⟨c, data, dims, indcs, m, offs⟩ : CslIter α) =
        some (viewAt dims data indcs offs c,
          (⟨c + 1, data, dims, indcs, m, offs⟩ : CslIter α)) := by
      unfold iterNext
      rw [if_neg hlt]
    rw [hnext]
    show viewAt dims data indcs offs c ::
        iterViews (⟨c + 1, data, dims, indcs, m, offs⟩ : CslIter α) n =
      (List.range' c (n + 1)).map (viewAt dims data indcs offs)
    rw [List.range'_succ, List.map_cons]
    congr 1
    exact ih (⟨c + 1, data, dims, indcs, m, offs⟩ : CslIter α)
      (by dsimp only; omega)

theorem iterToList_eq {α : Type} (it : CslIter α) :
    iterToList it = (List.range' it.curr_idx (it.max_idx - it.curr_idx)).map
      (viewAt it.dims it.data it.indcs it.offs) :=
  iterViews_eq _ it (le_refl _)

/-- The outermost stride is exact and keeps every offset index of the
iterator's views inside the offsets container, for any store accepted by
`correct_offs_len` with a nonzero outermost axis. -/
theorem stride_mul_le {d0 : Nat} {rest : List Nat} {n : Nat}
    (hrest : rest ≠ []) (hd0 : 0 < d0)
    (h : correct_offs_len (d0 :: rest) = .ok n) :
    ∀ i, i ≤ d0 →
      satMul (usizeProd rest.dropLast) i = usizeProd rest.dropLast * i ∧
      usizeProd rest.dropLast * i ≤ n - 1 ∧ 1 ≤ n := by
  cases rest with
  | nil => exact absurd rfl hrest
  | cons r1 rest2 =>
    intro i hi
    rw [correct_offs_len_ge2] at h
    have hall : ¬ ((d0 :: r1 :: rest2).all (fun d => d = 0) = true) := by
      simp only [List.all_eq_true]
      intro hc
      have h1 := hc d0 (by simp)
      simp at h1
      omega
    rw [if_neg hall] at h
    rw [reverse_drop_one, List.filter_reverse, List.dropLast_cons₂] at h
    set mid := (r1 :: rest2).dropLast with hmid
    have hfc : List.filter (fun d => d ≠ 0) (d0 :: mid) =
        d0 :: List.filter (fun d => d ≠ 0) mid :=
      List.filter_cons_of_pos (decide_eq_true (by omega))
    rw [hfc] at h
    have hfold : ((d0 :: List.filter (fun d => d ≠ 0) mid).reverse).foldl
        satMul 1 =
        min ((d0 :: List.filter (fun d => d ≠ 0) mid).prod) USIZE_MAX := by
      rw [foldl_satMul_min _ 1 (by norm_num [USIZE_MAX]), one_mul,
        List.prod_reverse]
    rw [hfold, List.prod_cons] at h
    set G := (List.filter (fun d => d ≠ 0) mid).prod with hG
    have hFb : d0 * G ≤ USIZE_MAX - 1 ∧ n = d0 * G + 1 := by
      by_cases hle : d0 * G < USIZE_MAX
      · rw [min_eq_left (le_of_lt hle), if_neg (by omega),
          Except.ok.injEq] at h
        exact ⟨by omega, by omega⟩
      · rw [min_eq_right (by omega), if_pos rfl] at h
        exact Except.noConfusion h
    obtain ⟨hF, hn⟩ := hFb
    by_cases hz : ∀ x ∈ mid, x ≠ 0
    · have hfid : List.filter (fun d => d ≠ 0) mid = mid := by
        rw [List.filter_eq_self]
        intro a ha
        exact decide_eq_true (hz a ha)
      rw [hfid] at hG
      have hGle : G ≤ d0 * G := Nat.le_mul_of_pos_left _ hd0
      have hst : usizeProd mid = mid.prod := by
        refine usizeProd_eq _ ?_
        have h2 : USIZE_MAX < 2 ^ 64 := by norm_num [USIZE_MAX]
        omega
      rw [hst]
      have hii : mid.prod * i ≤ d0 * G := by
        have h3 : mid.prod * i ≤ mid.prod * d0 :=
          Nat.mul_le_mul_left _ hi
        have h4 : mid.prod * d0 = d0 * G := by
          rw [hG, Nat.mul_comm]
        omega
      refine ⟨satMul_eq (by omega), by omega, by omega⟩
    · push_neg at hz
      obtain ⟨x, hxm, hx0⟩ := hz
      subst hx0
      have hprod0 : mid.prod = 0 := List.prod_eq_zero hxm
      have hst : usizeProd mid = 0 := by
        rw [usizeProd_eq_mod, hprod0]
        simp
      rw [hst]
      refine ⟨?_, ?_, by omega⟩
      · exact satMul_eq (by rw [Nat.zero_mul]; exact Nat.zero_le _)
      · rw [Nat.zero_mul]
        omega

/-- **C5**: for a store with more than one axis, splitting the outermost
iterator at any in-range point `k` yields two sub-iterators whose outputs
concatenate to exactly the sequential iterator's output, and — because the
offsets are monotone and every view's offset index stays inside the offsets
container — the value/index sub-slice `[offStart, offEnd)` of every view of
the first half ends no later than the sub-slice of any view of the second
half begins, so the halves never overlap. -/
theorem c5_split_concat {α : Type} (csl : Csl α) (it : CslIter α)
    (hv : StoreValid csl) (hit : outermost_iter csl = some it) (k : Nat)
    (hk : k ≤ it.max_idx - it.curr_idx) :
    (iterToList (iterSplitAt it k).1 ++ iterToList (iterSplitAt it k).2 =
      iterToList it) ∧
    (∀ i1 i2, it.curr_idx ≤ i1 → i1 < it.curr_idx + k →
      it.curr_idx + k ≤ i2 → i2 < it.max_idx →
      (outermost_offs it.dims it.offs i1 (i1 + 1)).2.2 ≤
        (outermost_offs it.dims it.offs i2 (i2 + 1)).2.1) := by
  constructor
  · obtain ⟨c, data, dims, indcs, m, offs⟩ := it
    dsimp only at hk
    show iterToList (⟨c, data, dims, indcs, c + k, offs⟩ : CslIter α) ++
        iterToList (⟨c + k, data, dims, indcs, m, offs⟩ : CslIter α) =
      iterToList (⟨c, data, dims, indcs, m, offs⟩ : CslIter α)
    rw [iterToList_eq, iterToList_eq, iterToList_eq]
    dsimp only
    rw [show c + k - c = k from by omega]
    rw [← List.map_append, range'_append_one]
    rw [show k + (m - (c + k)) = m - c from by omega]
  · intro i1 i2 h1 h2 h3 h4
    obtain ⟨hzb, hdl, hmono, hcap, hlines, hnnzEq, hdims⟩ := hv
    unfold outermost_iter at hit
    cases hds : csl.dims with
    | nil => rw [hds] at hit; exact Option.noConfusion hit
    | cons d0 rest =>
      rw [hds] at hit
      have hit2 : (if (d0 :: rest).length > 1 then
          some (⟨0, csl.data, 1 :: rest, csl.indcs, d0, csl.offs⟩ :
            CslIter α)
        else none) = some it := hit
      by_cases hlen1 : (d0 :: rest).length > 1
      · rw [if_pos hlen1] at hit2
        have hit3 := (Option.some.injEq _ _).mp hit2
        subst hit3
        dsimp only at h1 h2 h3 h4 ⊢
        have hrest : rest ≠ [] := by
          intro h0
          rw [h0] at hlen1
          simp at hlen1
        have hd0 : 0 < d0 := by omega
        obtain ⟨hub, hcol⟩ := hdims (by rw [hds]; exact List.cons_ne_nil _ _)
        rw [hds] at hcol
        show (csl.offs.get?
            (satMul (outermost_stride (1 :: rest)) (i1 + 1))).getD 0 ≤
          (csl.offs.get? (satMul (outermost_stride (1 :: rest)) i2)).getD 0
        have hstv : outermost_stride (1 :: rest) = usizeProd rest.dropLast :=
          rfl
        rw [hstv]
        obtain ⟨hm1, hb1, hn1⟩ := stride_mul_le hrest hd0 hcol (i1 + 1)
          (by omega)
        obtain ⟨hm2, hb2, -⟩ := stride_mul_le hrest hd0 hcol i2 (by omega)
        rw [hm1, hm2, ← getD_eq_get?_getD, ← getD_eq_get?_getD]
        refine chain'_le_getD hmono ?_ ?_
        · exact Nat.mul_le_mul_left _ (by omega)
        · omega
      · rw [if_neg hlen1] at hit2
        exact Option.noConfusion hit2

/-- Witness for C5 at a concrete two-axis valid store: splitting the
two-line outermost iterator at `k = 1` and concatenating reproduces the
sequential output. -/
theorem c5_split_concat_witness :
    StoreValid (⟨[2, 3], [10, 20, 30], [0, 1, 2], [0, 2, 3]⟩ : Csl Int) ∧
    outermost_iter (⟨[2, 3], [10, 20, 30], [0, 1, 2], [0, 2, 3]⟩ :
      Csl Int) = some ⟨0, [10, 20, 30], [1, 3], [0, 1, 2], 2, [0, 2, 3]⟩ ∧
    iterToList (iterSplitAt (⟨0, [10, 20, 30], [1, 3], [0, 1, 2], 2,
        [0, 2, 3]⟩ : CslIter Int) 1).1 ++
      iterToList (iterSplitAt (⟨0, [10, 20, 30], [1, 3], [0, 1, 2], 2,
        [0, 2, 3]⟩ : CslIter Int) 1).2 =
      iterToList (⟨0, [10, 20, 30], [1, 3], [0, 1, 2], 2,
        [0, 2, 3]⟩ : CslIter Int) := by
  refine ⟨by decide, by decide, ?_⟩
  exact (c5_split_concat
    (⟨[2, 3], [10, 20, 30], [0, 1, 2], [0, 2, 3]⟩ : Csl Int)
    (⟨0, [10, 20, 30], [1, 3], [0, 1, 2], 2, [0, 2, 3]⟩ : CslIter Int)
    (by decide) (by decide) 1 (by decide)).1

end Ndsparse
